import Mathlib

/-!
# Verification development for `prefab/manifest.go`

A shallow embedding of `Manifest.Add`, `Manifest.Begin`, the fetch worker and
`Manifest.Converge`, followed by the theorems that settle the claims made about
them.

The host is an explicit state, every call that leaves the program is recorded
as an event of a trace, and the ways in which a Go function can stop
(`return err`, `log.Fatal`, a nil dereference, a send nobody receives) are the
constructors of `Exit`.
-/

namespace Prefab

/-! ## Data model -/

/-- Seconds since the epoch, in UTC. -/
abbrev Time := Int

/-- The two parts of a parsed `*url.URL` the program reads: `uri.Path` and
`uri.String()`. -/
structure Url where
  Path : String
  full : String
  deriving DecidableEq, Repr

/-- The `Manifest` struct. The twelve resource types are declared in other
files of the package; their descriptors are kept abstract as `ρ`. -/
structure Manifest (ρ : Type) where
  SourceLists : List ρ
  Packages : List ρ
  Directories : List ρ
  Templates : List ρ
  PackageArchives : List ρ
  Tarballs : List ρ
  Users : List ρ
  Symlinks : List ρ
  Services : List ρ
  Databases : List ρ
  DatabaseUsers : List ρ
  RubyBundles : List ρ
  deriving DecidableEq, Repr

/-- The state of the host: the clock, the modification time of
`/var/prefab/apt-update` when that file exists, the paths that exist in the
file system, and everything else (`ext`). -/
structure Host (χ : Type) where
  now : Time
  marker : Option Time
  files : List String
  ext : χ
  deriving DecidableEq, Repr

/-- The calls that leave the program, one constructor per call site. -/
inductive Call (ρ : Type) where
  | userCreate (u : ρ)
  | mkdirAll
  | statMarker
  | createMarker
  | aptUpdate
  | chtimes
  | slistInstall (s : ρ)
  | checkInstall
  | ppaInstall (p : ρ)
  | forceUpdate
  | installed (p : ρ)
  | spawnWorkers
  | archiveUrls (p : ρ)
  | statDest (dest : String)
  | createDest (dest : String)
  | httpGet (url : String) (dest : String)
  | copy (dest : String)
  | closeChannel
  | waitWorkers
  | pkgInstall (p : ρ)
  | unpack (t : ρ)
  | dirCreate (d : ρ)
  | tmplCreate (t : ρ)
  | symlinkCreate (s : ρ)
  | dbCreate (d : ρ)
  | dbuCreate (d : ρ)
  | bundleInstall (b : ρ)
  | svcCreate (s : ρ)
  deriving DecidableEq, Repr

/-- One call together with what it reported: the boolean it returned (`created`,
`Installed()`, "the file exists"; `false` when the call has none) and its error. -/
structure Event (ρ ε : Type) where
  call : Call ρ
  flag : Bool
  err : Option ε
  deriving DecidableEq, Repr

/-- The ways a run stops other than by returning `nil`: `return err`,
`log.Fatal(err)`, a nil dereference, and a channel send with no worker left to
receive it. -/
inductive Exit (ε : Type) where
  | err (e : ε)
  | fatal (e : ε)
  | panic
  | deadlock
  deriving DecidableEq, Repr

/-- Everything outside `manifest.go`: the resource appliers (methods declared
in other files of the package), the operating system and network calls, and
`url.Parse`. An applier may change the whole host; the failure of an operating
system call is decided by the host it runs on and may change `ext` only, its
effect on the clock, the marker and the files being fixed by the model. -/
structure Env (ρ χ ε : Type) where
  userCreate : ρ → Host χ → Option ε × Host χ
  slistInstall : ρ → Host χ → (Bool × Option ε) × Host χ
  checkInstall : Host χ → Option ε × Host χ
  ppaInstall : ρ → Host χ → (Bool × Option ε) × Host χ
  installed : ρ → Host χ → Bool × Host χ
  archiveUrls : ρ → Host χ → (List String × Option ε) × Host χ
  pkgInstall : ρ → Host χ → Option ε × Host χ
  unpack : ρ → Host χ → Option ε × Host χ
  dirCreate : ρ → Host χ → Option ε × Host χ
  tmplCreate : ρ → Host χ → Option ε × Host χ
  symlinkCreate : ρ → Host χ → Option ε × Host χ
  dbCreate : ρ → Host χ → Option ε × Host χ
  dbuCreate : ρ → Host χ → Option ε × Host χ
  bundleInstall : ρ → Host χ → Option ε × Host χ
  svcCreate : ρ → Host χ → Option ε × Host χ
  mkdirAll : Host χ → Option ε × χ
  statErr : Host χ → Option ε × χ
  createMarker : Host χ → Option ε × χ
  aptUpdate : Host χ → Option ε × χ
  chtimes : Host χ → Option ε × χ
  statDest : String → Host χ → Option ε × χ
  createDest : String → Host χ → Option ε × χ
  httpGet : String → Host χ → Option ε × χ
  copy : String → Host χ → Option ε × χ
  parseUrl : String → Option Url

/-! ## Programs: state passing with a trace -/

/-- What a program leaves behind: its result, the host and the calls it made. -/
structure Run (ρ χ ε α : Type) where
  res : Except (Exit ε) α
  host : Host χ
  trace : List (Event ρ ε)

/-- A program is a function of the host it starts on. -/
def Prog (ρ χ ε α : Type) : Type := Host χ → Run ρ χ ε α

/-- Sequencing: the second program runs on the host the first one left, unless
the first one stopped the run. -/
def Prog.bind {ρ χ ε α β : Type} (m : Prog ρ χ ε α) (f : α → Prog ρ χ ε β) :
    Prog ρ χ ε β := fun h =>
  match (m h).res with
  | .error x => ⟨.error x, (m h).host, (m h).trace⟩
  | .ok a => ⟨(f a (m h).host).res, (f a (m h).host).host,
      (m h).trace ++ (f a (m h).host).trace⟩

/-- A program that does nothing. -/
def Prog.pure {ρ χ ε α : Type} (a : α) : Prog ρ χ ε α := fun h => ⟨.ok a, h, []⟩

instance {ρ χ ε : Type} : Monad (Prog ρ χ ε) where
  pure := Prog.pure
  bind := Prog.bind

/-- Stops the run with the given exit. -/
def stop {ρ χ ε α : Type} (x : Exit ε) : Prog ρ χ ε α := fun h => ⟨.error x, h, []⟩

/-- The clock, `time.Now()`. -/
def getNow {ρ χ ε : Type} : Prog ρ χ ε Time := fun h => ⟨.ok h.now, h, []⟩

/-- A call that leaves the program: runs it on the host and records the event
that describes what it returned. -/
def callOp {ρ χ ε β : Type} (op : Host χ → β × Host χ) (ev : β → Event ρ ε) :
    Prog ρ χ ε β := fun h =>
  ⟨.ok (op h).1, (op h).2, [ev (op h).1]⟩

/-- A call that returns an error only (`err := ...`). -/
def exec {ρ χ ε : Type} (c : Call ρ) (op : Host χ → Option ε × Host χ) :
    Prog ρ χ ε (Option ε) :=
  callOp op (fun err => ⟨c, false, err⟩)

/-- A call that also reports a boolean (`created, err := ...`). -/
def execB {ρ χ ε : Type} (c : Call ρ) (op : Host χ → (Bool × Option ε) × Host χ) :
    Prog ρ χ ε (Bool × Option ε) :=
  callOp op (fun r => ⟨c, r.1, r.2⟩)

/-- A call of which the program sees at most a boolean (`pack.Installed()`, and
`os.Chtimes`, whose error is discarded where it is called): the event records
the boolean and no error. -/
def ask {ρ χ ε : Type} (c : Call ρ) (op : Host χ → Bool × Host χ) : Prog ρ χ ε Bool :=
  callOp op (fun b => ⟨c, b, none⟩)

/-- An operating system call that changes nothing the model tracks besides `ext`. -/
def sys {χ ε : Type} (op : Host χ → Option ε × χ) : Host χ → Option ε × Host χ :=
  fun h => ((op h).1, { h with ext := (op h).2 })

/-- Adds an event to the trace. -/
def record {ρ χ ε : Type} (ev : Event ρ ε) : Prog ρ χ ε Unit :=
  callOp (fun h => ((), h)) (fun _ => ev)

/-- A step of the program itself that the trace records (`go`, `close`,
`wg.Wait`). -/
def mark {ρ χ ε : Type} (c : Call ρ) : Prog ρ χ ε Unit :=
  record ⟨c, false, none⟩

/-- Runs an operation on the host without recording it. -/
def perform {ρ χ ε β : Type} (op : Host χ → β × Host χ) : Prog ρ χ ε β := fun h =>
  ⟨.ok (op h).1, (op h).2, []⟩

/-- A `for _, x := range xs` loop whose body has no result. -/
def forEach {ρ χ ε α : Type} (body : α → Prog ρ χ ε Unit) : List α → Prog ρ χ ε Unit
  | [] => Prog.pure ()
  | x :: rest => Prog.bind (body x) (fun _ => forEach body rest)

/-- The body `err := x.Apply(); if err != nil { return err }`. -/
def apply {ρ χ ε : Type} (c : Call ρ) (op : Host χ → Option ε × Host χ) :
    Prog ρ χ ε Unit :=
  Prog.bind (exec c op) (fun err =>
    match err with
    | some e => stop (.err e)
    | none => Prog.pure ())

/-! ## Manifest.Add -/

/-- Embeds `func (m *Manifest) Add(other Manifest)`: the new value of `*m`. -/
def Manifest.Add {ρ : Type} (m other : Manifest ρ) : Manifest ρ :=
  let m := { m with SourceLists := m.SourceLists ++ other.SourceLists }
  let m := { m with Packages := m.Packages ++ other.Packages }
  let m := { m with Directories := m.Directories ++ other.Directories }
  let m := { m with Templates := m.Templates ++ other.Templates }
  let m := { m with PackageArchives := m.PackageArchives ++ other.PackageArchives }
  let m := { m with Tarballs := m.Tarballs ++ other.Tarballs }
  let m := { m with Users := m.Users ++ other.Users }
  let m := { m with Services := m.Services ++ other.Services }
  let m := { m with Databases := m.Databases ++ other.Databases }
  let m := { m with DatabaseUsers := m.DatabaseUsers ++ other.DatabaseUsers }
  let m := { m with Symlinks := m.Symlinks ++ other.Symlinks }
  { m with RubyBundles := m.RubyBundles ++ other.RubyBundles }

/-! ## Manifest.Begin -/

/-- Embeds `t.AddDate(0, 0, days)` in UTC. -/
def addDays (t : Time) (days : Int) : Time := t + days * 86400

/-- What `os.Stat` reports: the file does not exist, another error, or the
file with its modification time. -/
inductive StatResult (ε : Type) where
  | notExist
  | otherErr (e : ε)
  | found (modTime : Time)
  deriving DecidableEq, Repr

/-- Embeds `os.Stat("/var/prefab/apt-update")`: an error other than "does not
exist" is decided by the environment, otherwise the marker of the host is read. -/
def statMarker {ρ χ ε : Type} (env : Env ρ χ ε) : Prog ρ χ ε (StatResult ε) :=
  callOp
    (fun h =>
      (match (env.statErr h).1 with
        | some e => StatResult.otherErr e
        | none =>
          match h.marker with
          | none => StatResult.notExist
          | some t => StatResult.found t,
       { h with ext := (env.statErr h).2 }))
    (fun info =>
      match info with
      | .notExist => ⟨.statMarker, false, none⟩
      | .otherErr e => ⟨.statMarker, false, some e⟩
      | .found _ => ⟨.statMarker, true, none⟩)

/-- Embeds `os.Create("/var/prefab/apt-update")`: on success the file exists and was
modified now. -/
def createMarker {χ ε : Type} (op : Host χ → Option ε × χ) :
    Host χ → Option ε × Host χ := fun h =>
  match (op h).1 with
  | some e => (some e, { h with ext := (op h).2 })
  | none => (none, { h with marker := some h.now, ext := (op h).2 })

/-- Embeds `os.Chtimes("/var/prefab/apt-update", time.Now(), time.Now())`: the
environment decides whether it fails; when it succeeds the modification time of
an existing marker becomes now, when it fails the marker is left as it was. The
result says whether it succeeded; the program discards the error. -/
def chtimes {χ ε : Type} (op : Host χ → Option ε × χ) : Host χ → Bool × Host χ := fun h =>
  match (op h).1 with
  | some _ => (false, { h with ext := (op h).2 })
  | none => (true, { h with marker := h.marker.map (fun _ => h.now), ext := (op h).2 })

/-- Embeds `func (m Manifest) Begin() error`. -/
def Begin {ρ χ ε : Type} (env : Env ρ χ ε) : Prog ρ χ ε Unit := do
  let err ← exec .mkdirAll (sys env.mkdirAll)
  match err with
  | some e => stop (.err e)
  | none =>
    let info ← statMarker env
    match info with
    | .notExist =>
      let err ← exec .createMarker (createMarker env.createMarker)
      match err with
      | some e => stop (.err e)
      | none =>
        let err ← exec .aptUpdate (sys env.aptUpdate)
        match err with
        | some e => stop (.err e)
        | none => pure ()
    | .otherErr _ => stop .panic
    | .found modTime =>
      let now ← getNow
      if modTime < addDays now (-7) then
        let err ← exec .aptUpdate (sys env.aptUpdate)
        let _dropped ← ask .chtimes (chtimes env.chtimes)
        match err with
        | some e => stop (.err e)
        | none => pure ()
      else
        pure ()

/-! ## The fetch worker -/

/-- Splits a path at every slash. -/
def splitSlash : List Char → List (List Char)
  | [] => [[]]
  | c :: cs =>
    if c = '/' then [] :: splitSlash cs
    else
      match splitSlash cs with
      | [] => [[c]]
      | seg :: segs => (c :: seg) :: segs

/-- Embeds `path.Base`: the last element of the path, after the trailing slashes are
removed; `.` for the empty path and `/` for a path of slashes only. -/
def pathBase (p : String) : String :=
  if p.data = [] then "."
  else
    let stripped := (p.data.reverse.dropWhile (fun c => c = '/')).reverse
    let last := (stripped.reverse.takeWhile (fun c => c ≠ '/')).reverse
    if last = [] then "/" else String.mk last

/-- The elements `filepath.Clean` keeps, most recent first: empty elements and
`.` are dropped, `..` removes the element before it, is dropped at the root and
is kept in a path that is not rooted. -/
def cleanElems (rooted : Bool) : List (List Char) → List (List Char) → List (List Char)
  | kept, [] => kept
  | kept, seg :: segs =>
    if seg = [] ∨ seg = ['.'] then cleanElems rooted kept segs
    else if seg = ['.', '.'] then
      match kept with
      | top :: below =>
        if top = ['.', '.'] then cleanElems rooted (seg :: kept) segs
        else cleanElems rooted below segs
      | [] => if rooted then cleanElems rooted [] segs else cleanElems rooted [seg] segs
    else cleanElems rooted (seg :: kept) segs

/-- Embeds `filepath.Clean` on a slash-separated path. -/
def filepathClean (p : List Char) : List Char :=
  let rooted := p.head? = some '/'
  let elems := (cleanElems rooted [] (splitSlash p)).reverse
  let body := ['/'].intercalate elems
  let out := if rooted then '/' :: body else body
  if out = [] then ['.'] else out

/-- Embeds `filepath.Join(dir, name)`: the non-empty elements joined by a slash, cleaned. -/
def filepathJoin (dir name : String) : String :=
  if dir.data = [] ∧ name.data = [] then ""
  else if dir.data = [] then String.mk (filepathClean name.data)
  else if name.data = [] then String.mk (filepathClean dir.data)
  else String.mk (filepathClean (dir.data ++ '/' :: name.data))

/-- The cache directory of the fetch worker. -/
def cacheDir : String := "/var/cache/apt/archives"

/-- The destination of a locator,
`filepath.Join("/var/cache/apt/archives", path.Base(uri.Path))`. -/
def destination (uri : Url) : String := filepathJoin cacheDir (pathBase uri.Path)

/-- Embeds `_, err = os.Stat(destination)`: the result is `os.IsNotExist(err)`
together with the error when it is another one. A destination among the files
of the host is found; for one that is not, the environment decides between
"does not exist" and another error. -/
def statDest {ρ χ ε : Type} (op : Host χ → Option ε × χ) (dest : String) :
    Prog ρ χ ε (Bool × Option ε) :=
  callOp
    (fun h =>
      if dest ∈ h.files then ((false, none), h)
      else
        (match (op h).1 with
          | some e => (false, some e)
          | none => (true, none),
         { h with ext := (op h).2 }))
    (fun r => ⟨.statDest dest, !r.1, r.2⟩)

/-- Embeds `os.Create(destination)`: on success the destination exists. -/
def createDest {χ ε : Type} (op : Host χ → Option ε × χ) (dest : String) :
    Host χ → Option ε × Host χ := fun h =>
  match (op h).1 with
  | some e => (some e, { h with ext := (op h).2 })
  | none => (none, { h with files := dest :: h.files, ext := (op h).2 })

/-- The body of the worker loop once the locator is parsed; every path through
it ends in `continue`. The deferred `Close` calls run when the worker returns
and are not modelled. -/
def fetch {ρ χ ε : Type} (env : Env ρ χ ε) (uri : Url) : Prog ρ χ ε Unit := do
  let dest := destination uri
  let stat ← statDest (env.statDest dest) dest
  if !stat.1 then
    pure ()
  else
    let err ← exec (.createDest dest) (createDest (env.createDest dest) dest)
    match err with
    | some _ => pure ()
    | none =>
      let err ← exec (.httpGet uri.full dest) (sys (env.httpGet uri.full))
      match err with
      | some _ => pure ()
      | none =>
        let _dropped ← exec (.copy dest) (sys (env.copy dest))
        pure ()

/-- One iteration of the worker loop on a value received from the open
channel: `false` when the worker returns (empty string), `true` when it goes on
to the next receive. `url.Parse` leaves `uri` nil when it fails, and reading
`uri.Path` then panics. -/
def receive {ρ χ ε : Type} (env : Env ρ χ ε) (rawUrl : String) : Prog ρ χ ε Bool :=
  if rawUrl.length = 0 then pure false
  else
    match env.parseUrl rawUrl with
    | none => stop .panic
    | some uri => do
      fetch env uri
      pure true

/-- The worker goroutine, as a function of the values it receives one after
another before the channel is closed. -/
def worker {ρ χ ε : Type} (env : Env ρ χ ε) : List String → Prog ρ χ ε Unit
  | [] => Prog.pure ()
  | rawUrl :: rest =>
    Prog.bind (receive env rawUrl) (fun more =>
      if more then worker env rest else Prog.pure ())

/-! ## Manifest.Converge -/

/-- The loops over `m.SourceLists` and `m.PackageArchives`: the argument and
the result are `apt_update_needed`. -/
def installAll {ρ χ ε : Type} (tag : ρ → Call ρ)
    (op : ρ → Host χ → (Bool × Option ε) × Host χ) :
    List ρ → Bool → Prog ρ χ ε Bool
  | [], needed => Prog.pure needed
  | x :: rest, needed =>
    Prog.bind (execB (tag x) (op x)) (fun r =>
      match r.2 with
      | some e => stop (.err e)
      | none => installAll tag op rest (if r.1 then true else needed))

/-- The loop that collects `packagesToInstall`; the argument is the slice
built so far. The log line is not modelled. -/
def collect {ρ χ ε : Type} (env : Env ρ χ ε) : List ρ → List ρ → Prog ρ χ ε (List ρ)
  | [], acc => Prog.pure acc
  | pack :: rest, acc =>
    Prog.bind (ask (.installed pack) (env.installed pack)) (fun inst =>
      collect env rest (if !inst then acc ++ [pack] else acc))

/-- A send on the unbuffered channel while `alive` workers are still in their
loop: with none left the send blocks for ever; otherwise one of them receives
the value and runs one iteration on it. The result is the number of workers
still in their loop. -/
def send {ρ χ ε : Type} (env : Env ρ χ ε) (alive : Nat) (rawUrl : String) :
    Prog ρ χ ε Nat :=
  if alive = 0 then stop .deadlock
  else
    Prog.bind (receive env rawUrl) (fun more =>
      Prog.pure (if more then alive else alive - 1))

/-- The sends of one `ArchiveUrls` call, in order. -/
def sendAll {ρ χ ε : Type} (env : Env ρ χ ε) : List String → Nat → Prog ρ χ ε Nat
  | [], alive => Prog.pure alive
  | rawUrl :: rest, alive =>
    Prog.bind (send env alive rawUrl) (fun alive1 => sendAll env rest alive1)

/-- Embeds `err := pack.ArchiveUrls(archiveChannel)`: the applier decides the values it
sends and its error; the values are received one after another, each one
handled to the end before the next is sent, and the event is recorded when the
call returns. -/
def archiveUrls {ρ χ ε : Type} (env : Env ρ χ ε) (pack : ρ) (alive : Nat) :
    Prog ρ χ ε (Nat × Option ε) := do
  let sent ← perform (env.archiveUrls pack)
  let alive1 ← sendAll env sent.1 alive
  record ⟨.archiveUrls pack, false, sent.2⟩
  pure (alive1, sent.2)

/-- The loop that calls `ArchiveUrls` for every package to install. -/
def produce {ρ χ ε : Type} (env : Env ρ χ ε) : List ρ → Nat → Prog ρ χ ε Unit
  | [], _ => Prog.pure ()
  | pack :: rest, alive =>
    Prog.bind (archiveUrls env pack alive) (fun r =>
      match r.2 with
      | some e => stop (.fatal e)
      | none => produce env rest r.1)

/-- The body of the loop that installs the packages. -/
def installPackage {ρ χ ε : Type} (env : Env ρ χ ε) (pack : ρ) : Prog ρ χ ε Unit :=
  Prog.bind (exec (.pkgInstall pack) (env.pkgInstall pack)) (fun err =>
    match err with
    | some e => stop (.fatal e)
    | none => Prog.pure ())

/-- Embeds `func (m Manifest) Converge() error`. The twenty workers are run one
iteration at a time, in the order of the sends. -/
def Converge {ρ χ ε : Type} (env : Env ρ χ ε) (m : Manifest ρ) : Prog ρ χ ε Unit := do
  forEach (fun user => apply (.userCreate user) (env.userCreate user)) m.Users
  Begin env
  let apt_update_needed ← installAll .slistInstall env.slistInstall m.SourceLists false
  (if m.PackageArchives.length > 0 then
    apply .checkInstall env.checkInstall
  else
    pure ())
  let apt_update_needed ←
    installAll .ppaInstall env.ppaInstall m.PackageArchives apt_update_needed
  (if apt_update_needed then
    apply .forceUpdate (sys env.aptUpdate)
  else
    pure ())
  let packagesToInstall ← collect env m.Packages []
  (if packagesToInstall.length > 0 then do
    mark .spawnWorkers
    produce env packagesToInstall 20
    mark .closeChannel
    mark .waitWorkers
    forEach (installPackage env) packagesToInstall
  else
    pure ())
  forEach (fun tarball => apply (.unpack tarball) (env.unpack tarball)) m.Tarballs
  forEach (fun dir => apply (.dirCreate dir) (env.dirCreate dir)) m.Directories
  forEach (fun tmpl => apply (.tmplCreate tmpl) (env.tmplCreate tmpl)) m.Templates
  forEach (fun symlink => apply (.symlinkCreate symlink) (env.symlinkCreate symlink)) m.Symlinks
  forEach (fun db => apply (.dbCreate db) (env.dbCreate db)) m.Databases
  forEach (fun dbu => apply (.dbuCreate dbu) (env.dbuCreate dbu)) m.DatabaseUsers
  forEach (fun rb => apply (.bundleInstall rb) (env.bundleInstall rb)) m.RubyBundles
  forEach (fun service => apply (.svcCreate service) (env.svcCreate service)) m.Services

/-! ## The four parts of Converge -/

/-- The part of `Converge` before the forced refresh: the users, `Begin`, the
source lists, the archive tool and the package archives. The result is
`apt_update_needed`. -/
def convergeSources {ρ χ ε : Type} (env : Env ρ χ ε) (m : Manifest ρ) : Prog ρ χ ε Bool := do
  forEach (fun user => apply (.userCreate user) (env.userCreate user)) m.Users
  Begin env
  let apt_update_needed ← installAll .slistInstall env.slistInstall m.SourceLists false
  (if m.PackageArchives.length > 0 then
    apply .checkInstall env.checkInstall
  else
    pure ())
  installAll .ppaInstall env.ppaInstall m.PackageArchives apt_update_needed

/-- The forced refresh of `Converge`. -/
def forceRefresh {ρ χ ε : Type} (env : Env ρ χ ε) (apt_update_needed : Bool) :
    Prog ρ χ ε Unit :=
  if apt_update_needed then
    apply .forceUpdate (sys env.aptUpdate)
  else
    pure ()

/-- The part of `Converge` once the packages to install are known: the workers,
the `ArchiveUrls` calls and the installs. -/
def installPackages {ρ χ ε : Type} (env : Env ρ χ ε) (packagesToInstall : List ρ) :
    Prog ρ χ ε Unit :=
  if packagesToInstall.length > 0 then do
    mark .spawnWorkers
    produce env packagesToInstall 20
    mark .closeChannel
    mark .waitWorkers
    forEach (installPackage env) packagesToInstall
  else
    pure ()

/-- The part of `Converge` about the packages. -/
def convergePackages {ρ χ ε : Type} (env : Env ρ χ ε) (m : Manifest ρ) : Prog ρ χ ε Unit := do
  let packagesToInstall ← collect env m.Packages []
  installPackages env packagesToInstall

/-- The part of `Converge` after the packages: the eight remaining kinds. -/
def convergeResources {ρ χ ε : Type} (env : Env ρ χ ε) (m : Manifest ρ) : Prog ρ χ ε Unit := do
  forEach (fun tarball => apply (.unpack tarball) (env.unpack tarball)) m.Tarballs
  forEach (fun dir => apply (.dirCreate dir) (env.dirCreate dir)) m.Directories
  forEach (fun tmpl => apply (.tmplCreate tmpl) (env.tmplCreate tmpl)) m.Templates
  forEach (fun symlink => apply (.symlinkCreate symlink) (env.symlinkCreate symlink)) m.Symlinks
  forEach (fun db => apply (.dbCreate db) (env.dbCreate db)) m.Databases
  forEach (fun dbu => apply (.dbuCreate dbu) (env.dbuCreate dbu)) m.DatabaseUsers
  forEach (fun rb => apply (.bundleInstall rb) (env.bundleInstall rb)) m.RubyBundles
  forEach (fun service => apply (.svcCreate service) (env.svcCreate service)) m.Services

/-! ## Vocabulary of the statements -/

/-- The position in `Converge` of the code that makes the call: the users, the
body of `Begin`, the source lists, the check of the archive tool, the package
archives, the forced refresh, the `Installed` checks, the start of the workers,
the `ArchiveUrls` calls with the fetches they feed, the closing of the channel,
the wait for the workers, the package installs, and the eight kinds that
follow, in the order of the source. -/
def Call.phase {ρ : Type} : Call ρ → Nat
  | .userCreate _ => 0
  | .mkdirAll => 1
  | .statMarker => 1
  | .createMarker => 1
  | .aptUpdate => 1
  | .chtimes => 1
  | .slistInstall _ => 2
  | .checkInstall => 3
  | .ppaInstall _ => 4
  | .forceUpdate => 5
  | .installed _ => 6
  | .spawnWorkers => 7
  | .archiveUrls _ => 8
  | .statDest _ => 8
  | .createDest _ => 8
  | .httpGet _ _ => 8
  | .copy _ => 8
  | .closeChannel => 9
  | .waitWorkers => 10
  | .pkgInstall _ => 11
  | .unpack _ => 12
  | .dirCreate _ => 13
  | .tmplCreate _ => 14
  | .symlinkCreate _ => 15
  | .dbCreate _ => 16
  | .dbuCreate _ => 17
  | .bundleInstall _ => 18
  | .svcCreate _ => 19

/-- The calls whose error the program hands to `return err`. -/
def Call.returnsError {ρ : Type} : Call ρ → Bool
  | .userCreate _ => true
  | .mkdirAll => true
  | .createMarker => true
  | .aptUpdate => true
  | .slistInstall _ => true
  | .checkInstall => true
  | .ppaInstall _ => true
  | .forceUpdate => true
  | .unpack _ => true
  | .dirCreate _ => true
  | .tmplCreate _ => true
  | .symlinkCreate _ => true
  | .dbCreate _ => true
  | .dbuCreate _ => true
  | .bundleInstall _ => true
  | .svcCreate _ => true
  | _ => false

/-- The calls made by the fetch worker. -/
def Call.isFetch {ρ : Type} : Call ρ → Bool
  | .statDest _ => true
  | .createDest _ => true
  | .httpGet _ _ => true
  | .copy _ => true
  | _ => false

/-- What the program does with the error `e` of a call: `return err`,
`log.Fatal(err)`, the nil dereference after a failed `os.Stat` of the marker,
or nothing (`none`: the error is dropped and the run goes on). -/
def Call.onFailure {ρ ε : Type} (c : Call ρ) (e : ε) : Option (Exit ε) :=
  match c with
  | .archiveUrls _ => some (.fatal e)
  | .pkgInstall _ => some (.fatal e)
  | .statMarker => some .panic
  | c => if c.returnsError then some (.err e) else none

/-- The exit an event forces, if any. -/
def Event.stops {ρ ε : Type} (ev : Event ρ ε) : Option (Exit ε) :=
  match ev.err with
  | none => none
  | some e => ev.call.onFailure e

/-- No call of the trace failed, the calls of the fetch worker apart. -/
def Quiet {ρ ε : Type} (t : List (Event ρ ε)) : Prop :=
  ∀ ev ∈ t, ev.err = none ∨ ev.call.isFetch = true

/-- The shape of a run that stops on the first failure: a run that returns
`nil` is quiet; a run that stops otherwise either ends with the event that
stops it, quiet before it and followed at most by the `Chtimes` of `Begin`
after a failed refresh, or, when `crash` allows it, is a panic or a deadlock of
a quiet run. -/
def Run.FailStop {ρ χ ε α : Type} (crash : Prop) (r : Run ρ χ ε α) : Prop :=
  match r.res with
  | .ok _ => Quiet r.trace
  | .error x =>
    (∃ pre ev post, r.trace = pre ++ ev :: post ∧ Quiet pre ∧ ev.stops = some x ∧
      ∀ y ∈ post, y.call = .chtimes ∧ ev.call = .aptUpdate) ∨
    (crash ∧ (x = .panic ∨ x = .deadlock) ∧ Quiet r.trace)

/-- The calls of a program are made in the order of their phases, all of them
between `lo` and `hi`. -/
def Ordered {ρ χ ε α : Type} (lo hi : Nat) (p : Prog ρ χ ε α) : Prop :=
  ∀ h, (p h).trace.Pairwise (fun a b => a.call.phase ≤ b.call.phase) ∧
    ∀ ev ∈ (p h).trace, lo ≤ ev.call.phase ∧ ev.call.phase ≤ hi


/-- The downloads attempted in a trace: the locator requested and the
destination it is written to, in order. -/
def downloads {ρ ε : Type} (t : List (Event ρ ε)) : List (String × String) :=
  t.filterMap (fun ev =>
    match ev.call with
    | .httpGet url dest => some (url, dest)
    | _ => none)

/-- The destinations whose existence is checked in a trace, in order. -/
def statted {ρ ε : Type} (t : List (Event ρ ε)) : List String :=
  t.filterMap (fun ev =>
    match ev.call with
    | .statDest dest => some dest
    | _ => none)

/-- The event is an `Install` of a source list or of a package archive that
reported `created`. -/
def Event.created {ρ ε : Type} (ev : Event ρ ε) : Bool :=
  match ev.call with
  | .slistInstall _ => ev.flag
  | .ppaInstall _ => ev.flag
  | _ => false

/-- The forced refreshes of a trace. -/
def forced {ρ ε : Type} (t : List (Event ρ ε)) : List (Event ρ ε) :=
  t.filter (fun ev =>
    match ev.call with
    | .forceUpdate => true
    | _ => false)

/-- The `Installed` checks of a trace with their results, in order. -/
def checksOf {ρ ε : Type} (t : List (Event ρ ε)) : List (ρ × Bool) :=
  t.filterMap (fun ev =>
    match ev.call with
    | .installed p => some (p, ev.flag)
    | _ => none)

/-- The packages whose `Installed` check returned false in a trace, in order. -/
def toInstallOf {ρ ε : Type} (t : List (Event ρ ε)) : List ρ :=
  ((checksOf t).filter (fun x => !x.2)).map Prod.fst

/-- The packages whose `ArchiveUrls` returned in a trace, in order. -/
def archivedOf {ρ ε : Type} (t : List (Event ρ ε)) : List ρ :=
  t.filterMap (fun ev =>
    match ev.call with
    | .archiveUrls p => some p
    | _ => none)

/-- The packages whose `Install` is invoked in a trace, in order. -/
def installsOf {ρ ε : Type} (t : List (Event ρ ε)) : List ρ :=
  t.filterMap (fun ev =>
    match ev.call with
    | .pkgInstall p => some p
    | _ => none)

/-- The run ended in a panic or in a deadlock. -/
def Run.crashed {ρ χ ε α : Type} (r : Run ρ χ ε α) : Bool :=
  match r.res with
  | .error .panic => true
  | .error .deadlock => true
  | _ => false
/-! ## Concrete hosts and environments used in the examples -/

/-- An environment in which every call succeeds, nothing is created, every
package is installed and every locator parses to the path after the host name
`http://x`. -/
def quietEnv : Env String Unit String where
  userCreate := fun _ h => (none, h)
  slistInstall := fun _ h => ((false, none), h)
  checkInstall := fun h => (none, h)
  ppaInstall := fun _ h => ((false, none), h)
  installed := fun _ h => (true, h)
  archiveUrls := fun _ h => (([], none), h)
  pkgInstall := fun _ h => (none, h)
  unpack := fun _ h => (none, h)
  dirCreate := fun _ h => (none, h)
  tmplCreate := fun _ h => (none, h)
  symlinkCreate := fun _ h => (none, h)
  dbCreate := fun _ h => (none, h)
  dbuCreate := fun _ h => (none, h)
  bundleInstall := fun _ h => (none, h)
  svcCreate := fun _ h => (none, h)
  mkdirAll := fun _ => (none, ())
  statErr := fun _ => (none, ())
  createMarker := fun _ => (none, ())
  aptUpdate := fun _ => (none, ())
  chtimes := fun _ => (none, ())
  statDest := fun _ _ => (none, ())
  createDest := fun _ _ => (none, ())
  httpGet := fun _ _ => (none, ())
  copy := fun _ _ => (none, ())
  parseUrl := fun s => some ⟨String.mk (s.data.drop 8), s⟩

/-- A host at time `now` with the given marker and an empty cache. -/
def hostAt (now : Time) (marker : Option Time) : Host Unit :=
  ⟨now, marker, [], ()⟩

/-- The empty manifest. -/
def emptyManifest : Manifest String :=
  ⟨[], [], [], [], [], [], [], [], [], [], [], []⟩


/-- The quiet environment, except that `apt-get update` fails. -/
def refreshFails : Env String Unit String :=
  { quietEnv with aptUpdate := fun _ => (some "exit status 100", ()) }

/-- Three manifests with one resource of every kind each. -/
def manifestOf (tag : String) : Manifest String :=
  ⟨[tag ++ "-list"], [tag ++ "-pkg"], [tag ++ "-dir"], [tag ++ "-tmpl"], [tag ++ "-ppa"],
    [tag ++ "-tar"], [tag ++ "-user"], [tag ++ "-link"], [tag ++ "-svc"], [tag ++ "-db"],
    [tag ++ "-dbu"], [tag ++ "-gem"]⟩

/-- The quiet environment, except that every network request fails. -/
def networkDown : Env String Unit String :=
  { quietEnv with httpGet := fun _ _ => (some "connection refused", ()) }

/-- The quiet environment on a host where no package is installed yet: every
package has one archive locator and every source list is newly created. -/
def freshEnv : Env String Unit String :=
  { quietEnv with
    installed := fun _ h => (false, h)
    archiveUrls := fun p h => ((["http://x/pool/" ++ p ++ ".deb"], none), h)
    slistInstall := fun _ h => ((true, none), h) }

/-- The quiet environment on a host where no package is installed and every
package install fails. -/
def installFails : Env String Unit String :=
  { quietEnv with
    installed := fun _ h => (false, h)
    pkgInstall := fun _ h => (some "exit status 100", h) }

/-- A manifest of two packages. -/
def twoPackages : Manifest String :=
  { emptyManifest with Packages := ["nginx", "redis"] }

/-- The fresh environment with the network down. -/
def offlineEnv : Env String Unit String :=
  { freshEnv with httpGet := fun _ _ => (some "connection refused", ()) }

/-- The fresh environment, except that writing a template fails. -/
def templateFails : Env String Unit String :=
  { freshEnv with tmplCreate := fun _ h => (some "permission denied", h) }

/-- The quiet environment, except that `os.Chtimes` fails. -/
def chtimesFails : Env String Unit String :=
  { quietEnv with chtimes := fun _ => (some "operation not permitted", ()) }

/-- The quiet environment, except that `os.Create` of a destination fails. -/
def createFails : Env String Unit String :=
  { quietEnv with createDest := fun _ _ => (some "permission denied", ()) }

/-- The fresh environment, except that `ArchiveUrls` sends the locator `%zz`
for every package; `url.Parse` rejects it (invalid URL escape). -/
def malformedLocator : Env String Unit String :=
  { freshEnv with
    archiveUrls := fun _ h => ((["%zz"], none), h)
    parseUrl := fun s => if s = "%zz" then none else some ⟨String.mk (s.data.drop 8), s⟩ }

/-- The fresh environment, except that `ArchiveUrls` sends twenty-one empty
strings for every package. -/
def blankLocators : Env String Unit String :=
  { freshEnv with archiveUrls := fun _ h => ((List.replicate 21 "", none), h) }
/-! # Theorems -/

variable {ρ χ ε : Type} {κ : Prop}

/-! ## Sequencing -/

theorem bind_def {α β : Type} (m : Prog ρ χ ε α) (f : α → Prog ρ χ ε β) :
    (m >>= f) = Prog.bind m f := rfl

theorem pure_def {α : Type} (a : α) : (pure a : Prog ρ χ ε α) = Prog.pure a := rfl

theorem bind_ok {α β : Type} (m : Prog ρ χ ε α) (f : α → Prog ρ χ ε β) (h : Host χ) (a : α)
    (hm : (m h).res = .ok a) :
    Prog.bind m f h = ⟨(f a (m h).host).res, (f a (m h).host).host,
      (m h).trace ++ (f a (m h).host).trace⟩ := by
  simp only [Prog.bind, hm]

theorem bind_error {α β : Type} (m : Prog ρ χ ε α) (f : α → Prog ρ χ ε β) (h : Host χ)
    (x : Exit ε) (hm : (m h).res = .error x) :
    Prog.bind m f h = ⟨.error x, (m h).host, (m h).trace⟩ := by
  simp only [Prog.bind, hm]

theorem bind_assoc {α β γ : Type} (m : Prog ρ χ ε α) (f : α → Prog ρ χ ε β)
    (g : β → Prog ρ χ ε γ) :
    Prog.bind (Prog.bind m f) g = Prog.bind m (fun a => Prog.bind (f a) g) := by
  funext h
  cases hm : (m h).res with
  | error x => simp [Prog.bind, hm]
  | ok a =>
    cases hf : (f a (m h).host).res with
    | error y => simp [Prog.bind, hm, hf]
    | ok b => simp [Prog.bind, hm, hf]

/-! ## Runs stop at the first failure -/

theorem quiet_nil : Quiet ([] : List (Event ρ ε)) := by
  intro ev hev
  cases hev

theorem quiet_append {s t : List (Event ρ ε)} (hs : Quiet s) (ht : Quiet t) :
    Quiet (s ++ t) := by
  intro ev hev
  rcases List.mem_append.1 hev with h | h
  · exact hs ev h
  · exact ht ev h

theorem failStop_bind {α β : Type} {m : Prog ρ χ ε α} {f : α → Prog ρ χ ε β}
    (hm : ∀ h, (m h).FailStop κ) (hf : ∀ a h, (f a h).FailStop κ) :
    ∀ h, (Prog.bind m f h).FailStop κ := by
  intro h
  have h1 := hm h
  cases hr : (m h).res with
  | error x =>
    rw [bind_error m f h x hr]
    simpa [Run.FailStop, hr] using h1
  | ok a =>
    rw [bind_ok m f h a hr]
    have h2 := hf a (m h).host
    simp only [Run.FailStop, hr] at h1
    cases hr2 : (f a (m h).host).res with
    | ok b =>
      simp only [Run.FailStop, hr2] at h2 ⊢
      exact quiet_append h1 h2
    | error y =>
      simp only [Run.FailStop, hr2] at h2 ⊢
      rcases h2 with ⟨pre, ev, post, ht, hq, hs, hp⟩ | ⟨hc0, hx, hq⟩
      · left
        exact ⟨(m h).trace ++ pre, ev, post, by rw [ht, List.append_assoc], quiet_append h1 hq,
          hs, hp⟩
      · right
        exact ⟨hc0, hx, quiet_append h1 hq⟩

theorem failStop_pure {α : Type} (a : α) (h : Host χ) :
    (Prog.pure a h : Run ρ χ ε α).FailStop κ := by
  simp [Run.FailStop, Prog.pure, quiet_nil]

theorem quiet_singleton {ev : Event ρ ε} (h : ev.err = none ∨ ev.call.isFetch = true) :
    Quiet [ev] := by
  intro x hx
  simp only [List.mem_singleton] at hx
  subst hx
  exact h

theorem failStop_callOp_bind_at {β γ : Type} (op : Host χ → β × Host χ) (ev : β → Event ρ ε)
    (k : β → Prog ρ χ ε γ)
    (hk : ∀ h, match (ev (op h).1).stops with
      | none => ((ev (op h).1).err = none ∨ (ev (op h).1).call.isFetch = true) ∧
          (k (op h).1 (op h).2).FailStop κ
      | some x => (k (op h).1 (op h).2).res = .error x ∧
          ∀ y ∈ (k (op h).1 (op h).2).trace,
            y.call = Call.chtimes ∧ (ev (op h).1).call = Call.aptUpdate) :
    ∀ h, (Prog.bind (callOp op ev) k h).FailStop κ := by
  intro h
  rw [bind_ok (callOp op ev) k h (op h).1 rfl]
  have h1 := hk h
  cases hc : (ev (op h).1).stops with
  | none =>
    simp only [hc] at h1
    have hq : Quiet [ev (op h).1] := quiet_singleton h1.1
    replace h1 := h1.2
    cases hr : (k (op h).1 (op h).2).res with
    | ok b =>
      simp only [Run.FailStop, hr, callOp] at h1 ⊢
      exact quiet_append hq h1
    | error y =>
      simp only [Run.FailStop, hr, callOp] at h1 ⊢
      rcases h1 with ⟨pre, e, post, ht, hq1, hs, hp⟩ | ⟨hc0, hx, hq1⟩
      · left
        exact ⟨[ev (op h).1] ++ pre, e, post, by rw [ht, List.append_assoc],
          quiet_append hq hq1, hs, hp⟩
      · right
        exact ⟨hc0, hx, quiet_append hq hq1⟩
  | some x =>
    simp only [hc] at h1
    simp only [Run.FailStop, h1.1, callOp]
    left
    exact ⟨[], ev (op h).1, (k (op h).1 (op h).2).trace, by simp, quiet_nil, hc, h1.2⟩

theorem failStop_callOp_bind {β γ : Type} (op : Host χ → β × Host χ) (ev : β → Event ρ ε)
    (k : β → Prog ρ χ ε γ)
    (hk : ∀ b h, match (ev b).stops with
      | none => ((ev b).err = none ∨ (ev b).call.isFetch = true) ∧ (k b h).FailStop κ
      | some x => (k b h).res = .error x ∧
          ∀ y ∈ (k b h).trace, y.call = Call.chtimes ∧ (ev b).call = Call.aptUpdate) :
    ∀ h, (Prog.bind (callOp op ev) k h).FailStop κ :=
  failStop_callOp_bind_at op ev k (fun h => hk (op h).1 (op h).2)

theorem failStop_callOp {β : Type} (op : Host χ → β × Host χ) (ev : β → Event ρ ε)
    (hev : ∀ b, (ev b).err = none ∨ (ev b).call.isFetch = true) :
    ∀ h, (callOp op ev h).FailStop κ := by
  intro h
  simp only [Run.FailStop, callOp]
  exact quiet_singleton (hev _)

theorem failStop_stop_panic {α : Type} (h : Host χ) :
    (stop Exit.panic h : Run ρ χ ε α).FailStop True := by
  simp [Run.FailStop, stop, quiet_nil]

theorem failStop_stop_deadlock {α : Type} (h : Host χ) :
    (stop Exit.deadlock h : Run ρ χ ε α).FailStop True := by
  simp [Run.FailStop, stop, quiet_nil]

theorem failStop_apply (c : Call ρ) (op : Host χ → Option ε × Host χ)
    (hc : c.returnsError = true) : ∀ h, (apply c op h).FailStop κ := by
  unfold apply exec
  apply failStop_callOp_bind
  intro b h
  cases b with
  | none => simp [Event.stops, failStop_pure]
  | some e =>
    have : c.onFailure e = some (Exit.err e) := by
      cases c <;> simp_all [Call.onFailure, Call.returnsError]
    simp [Event.stops, this, stop]

theorem failStop_forEach {α : Type} (body : α → Prog ρ χ ε Unit)
    (hb : ∀ x h, (body x h).FailStop κ) : ∀ xs h, (forEach body xs h).FailStop κ := by
  intro xs
  induction xs with
  | nil => exact failStop_pure ()
  | cons x rest ih =>
    unfold forEach
    exact failStop_bind (hb x) (fun _ => ih)

theorem failStop_begin (env : Env ρ χ ε) : ∀ h, (Begin (ρ := ρ) env h).FailStop κ := by
  unfold Begin exec ask statMarker getNow
  simp only [bind_def, pure_def]
  apply failStop_callOp_bind
  intro b h
  cases b with
  | some e => simp [Event.stops, Call.onFailure, Call.returnsError, stop]
  | none =>
    simp only [Event.stops]
    refine ⟨by simp [Call.isFetch], ?_⟩
    revert h
    apply failStop_callOp_bind
    intro info h
    cases info with
    | otherErr e => simp [Event.stops, Call.onFailure, stop]
    | notExist =>
      simp only [Event.stops]
      refine ⟨by simp [Call.isFetch], ?_⟩
      revert h
      apply failStop_callOp_bind
      intro b h
      cases b with
      | some e => simp [Event.stops, Call.onFailure, Call.returnsError, stop]
      | none =>
        simp only [Event.stops]
        refine ⟨by simp [Call.isFetch], ?_⟩
        revert h
        apply failStop_callOp_bind
        intro b h
        cases b with
        | some e => simp [Event.stops, Call.onFailure, Call.returnsError, stop]
        | none => simp [Event.stops, failStop_pure]
    | found modTime =>
      simp only [Event.stops]
      refine ⟨by simp [Call.isFetch], ?_⟩
      revert h
      apply failStop_bind
      · intro h
        simp [Run.FailStop, quiet_nil]
      · intro now h
        split
        · revert h
          apply failStop_callOp_bind
          intro b h
          cases b with
          | some e =>
            simp [Event.stops, Call.onFailure, Call.returnsError, stop, Prog.bind, callOp]
          | none =>
            simp only [Event.stops]
            refine ⟨by simp [Call.isFetch], ?_⟩
            revert h
            apply failStop_callOp_bind
            intro b h
            simp [Event.stops, failStop_pure]
        · exact failStop_pure () h

theorem pure_bind {α β : Type} (a : α) (f : α → Prog ρ χ ε β) :
    Prog.bind (Prog.pure a) f = f a := by
  funext h
  simp [Prog.bind, Prog.pure]

theorem failStop_perform {β : Type} (op : Host χ → β × Host χ) :
    ∀ h, (perform op h : Run ρ χ ε β).FailStop κ := by
  intro h
  simp [Run.FailStop, perform, quiet_nil]

theorem failStop_ite {α : Type} (c : Prop) [Decidable c] (p q : Prog ρ χ ε α)
    (hp : ∀ h, (p h).FailStop κ) (hq : ∀ h, (q h).FailStop κ) :
    ∀ h, ((if c then p else q) h).FailStop κ := by
  intro h
  split
  · exact hp h
  · exact hq h

theorem failStop_installAll (tag : ρ → Call ρ)
    (op : ρ → Host χ → (Bool × Option ε) × Host χ)
    (htag : ∀ x, (tag x).returnsError = true ∧ ∀ e : ε, (tag x).onFailure e = some (Exit.err e)) :
    ∀ xs needed h, (installAll tag op xs needed h).FailStop κ := by
  intro xs
  induction xs with
  | nil => exact fun needed => failStop_pure needed
  | cons x rest ih =>
    intro needed
    unfold installAll execB
    apply failStop_callOp_bind
    intro b h
    obtain ⟨created, err⟩ := b
    cases err with
    | none => simpa [Event.stops] using ih _ h
    | some e => simp [Event.stops, (htag x).2 e, stop]

theorem failStop_collect (env : Env ρ χ ε) :
    ∀ xs acc h, (collect env xs acc h).FailStop κ := by
  intro xs
  induction xs with
  | nil => exact fun acc => failStop_pure acc
  | cons x rest ih =>
    intro acc
    unfold collect ask
    apply failStop_callOp_bind
    intro b h
    simpa [Event.stops] using ih _ h

theorem failStop_fetch (env : Env ρ χ ε) (uri : Url) :
    ∀ h, (fetch (ρ := ρ) env uri h).FailStop κ := by
  unfold fetch statDest exec
  simp only [bind_def, pure_def]
  apply failStop_callOp_bind
  intro stat h
  have hs : (⟨Call.statDest (destination uri), !stat.1, stat.2⟩ : Event ρ ε).stops = none := by
    cases hst : stat.2 <;> simp [Event.stops, hst, Call.onFailure, Call.returnsError]
  simp only [hs]
  refine ⟨Or.inr rfl, ?_⟩
  split
  · exact failStop_pure () h
  · revert h
    apply failStop_callOp_bind
    intro b h
    cases b with
    | some e => simp [Event.stops, Call.onFailure, Call.returnsError, Call.isFetch, failStop_pure]
    | none =>
      simp only [Event.stops]
      refine ⟨by simp [Call.isFetch], ?_⟩
      revert h
      apply failStop_callOp_bind
      intro b h
      cases b with
      | some e => simp [Event.stops, Call.onFailure, Call.returnsError, Call.isFetch, failStop_pure]
      | none =>
        simp only [Event.stops]
        refine ⟨by simp [Call.isFetch], ?_⟩
        revert h
        apply failStop_callOp_bind
        intro b h
        cases b <;> simp [Event.stops, Call.onFailure, Call.returnsError, Call.isFetch, failStop_pure]

theorem failStop_receive (env : Env ρ χ ε) (rawUrl : String) :
    ∀ h, (receive (ρ := ρ) env rawUrl h).FailStop True := by
  unfold receive
  simp only [bind_def, pure_def]
  split
  · exact failStop_pure false
  · intro h
    cases hp : env.parseUrl rawUrl with
    | none => exact failStop_stop_panic h
    | some uri => exact failStop_bind (failStop_fetch env uri) (fun _ => failStop_pure true) h

theorem failStop_worker (env : Env ρ χ ε) :
    ∀ ls h, (worker (ρ := ρ) env ls h).FailStop True := by
  intro ls
  induction ls with
  | nil => exact failStop_pure ()
  | cons x rest ih =>
    unfold worker
    apply failStop_bind (failStop_receive env x)
    intro more
    cases more
    · exact failStop_pure ()
    · exact ih

theorem failStop_send (env : Env ρ χ ε) (alive : Nat) (rawUrl : String) :
    ∀ h, (send (ρ := ρ) env alive rawUrl h).FailStop True := by
  unfold send
  split
  · exact failStop_stop_deadlock
  · exact failStop_bind (failStop_receive env _) (fun _ => failStop_pure _)

theorem failStop_sendAll (env : Env ρ χ ε) :
    ∀ ls alive h, (sendAll (ρ := ρ) env ls alive h).FailStop True := by
  intro ls
  induction ls with
  | nil => exact fun alive => failStop_pure alive
  | cons x rest ih =>
    intro alive
    unfold sendAll
    exact failStop_bind (failStop_send env alive x) (fun a => ih a)

theorem failStop_produce (env : Env ρ χ ε) :
    ∀ ps alive h, (produce env ps alive h).FailStop True := by
  intro ps
  induction ps with
  | nil => exact fun _ => failStop_pure ()
  | cons p rest ih =>
    intro alive
    unfold produce archiveUrls record
    simp only [bind_def, pure_def, bind_assoc, pure_bind]
    apply failStop_bind (failStop_perform _)
    intro sent
    apply failStop_bind (failStop_sendAll env _ _)
    intro alive1
    apply failStop_callOp_bind
    intro b h
    cases hs : sent.2 with
    | none => simpa [Event.stops] using ih _ h
    | some e => simp [Event.stops, Call.onFailure, stop]

theorem failStop_installPackage (env : Env ρ χ ε) (pack : ρ) :
    ∀ h, (installPackage env pack h).FailStop κ := by
  unfold installPackage exec
  apply failStop_callOp_bind
  intro b h
  cases b with
  | none => simp [Event.stops, failStop_pure]
  | some e => simp [Event.stops, Call.onFailure, stop]

theorem failStop_mark (c : Call ρ) : ∀ h, (mark c h : Run ρ χ ε Unit).FailStop κ := by
  unfold mark record
  exact failStop_callOp _ _ (fun _ => Or.inl rfl)

theorem failStop_forEach_apply (tag : ρ → Call ρ) (op : ρ → Host χ → Option ε × Host χ)
    (htag : ∀ x, (tag x).returnsError = true) :
    ∀ xs h, (forEach (fun x => apply (tag x) (op x)) xs h).FailStop κ :=
  failStop_forEach _ (fun x => failStop_apply (tag x) (op x) (htag x))

theorem failStop_converge (env : Env ρ χ ε) (m : Manifest ρ) :
    ∀ h, (Converge env m h).FailStop True := by
  unfold Converge
  simp only [bind_def, pure_def]
  apply failStop_bind (failStop_forEach_apply Call.userCreate env.userCreate (fun _ => rfl) _)
  intro _
  apply failStop_bind (failStop_begin env)
  intro _
  apply failStop_bind
    (failStop_installAll Call.slistInstall _ (fun _ => ⟨rfl, fun _ => rfl⟩) _ _)
  intro needed
  apply failStop_bind
    (failStop_ite _ _ _ (failStop_apply Call.checkInstall _ rfl) (failStop_pure ()))
  intro _
  apply failStop_bind
    (failStop_installAll Call.ppaInstall _ (fun _ => ⟨rfl, fun _ => rfl⟩) _ _)
  intro needed2
  apply failStop_bind
    (failStop_ite _ _ _ (failStop_apply Call.forceUpdate _ rfl) (failStop_pure ()))
  intro _
  apply failStop_bind (failStop_collect env _ _)
  intro toInstall
  apply failStop_bind
  · apply failStop_ite
    · apply failStop_bind (failStop_mark _)
      intro _
      apply failStop_bind (failStop_produce env _ _)
      intro _
      apply failStop_bind (failStop_mark _)
      intro _
      apply failStop_bind (failStop_mark _)
      intro _
      exact failStop_forEach _ (failStop_installPackage env) _
    · exact failStop_pure ()
  intro _
  apply failStop_bind (failStop_forEach_apply Call.unpack env.unpack (fun _ => rfl) _)
  intro _
  apply failStop_bind (failStop_forEach_apply Call.dirCreate env.dirCreate (fun _ => rfl) _)
  intro _
  apply failStop_bind (failStop_forEach_apply Call.tmplCreate env.tmplCreate (fun _ => rfl) _)
  intro _
  apply failStop_bind
    (failStop_forEach_apply Call.symlinkCreate env.symlinkCreate (fun _ => rfl) _)
  intro _
  apply failStop_bind (failStop_forEach_apply Call.dbCreate env.dbCreate (fun _ => rfl) _)
  intro _
  apply failStop_bind (failStop_forEach_apply Call.dbuCreate env.dbuCreate (fun _ => rfl) _)
  intro _
  apply failStop_bind
    (failStop_forEach_apply Call.bundleInstall env.bundleInstall (fun _ => rfl) _)
  intro _
  exact failStop_forEach_apply Call.svcCreate env.svcCreate (fun _ => rfl) _

/-! ## Calls are made in the order of the phases -/

theorem ordered_mono {α : Type} {lo hi lo2 hi2 : Nat} {p : Prog ρ χ ε α}
    (hp : Ordered lo hi p) (h1 : lo2 ≤ lo) (h2 : hi ≤ hi2) : Ordered lo2 hi2 p := by
  intro h
  refine ⟨(hp h).1, fun ev hev => ?_⟩
  have := (hp h).2 ev hev
  omega

theorem ordered_of_trace_nil {α : Type} {i l : Nat} {p : Prog ρ χ ε α}
    (hp : ∀ h, (p h).trace = []) : Ordered i l p := by
  intro h
  rw [hp h]
  exact ⟨List.Pairwise.nil, fun ev hev => by cases hev⟩

theorem ordered_pure {α : Type} (lo hi : Nat) (a : α) :
    Ordered lo hi (Prog.pure a : Prog ρ χ ε α) :=
  ordered_of_trace_nil (fun _ => rfl)

theorem ordered_stop {α : Type} (lo hi : Nat) (x : Exit ε) :
    Ordered lo hi (stop x : Prog ρ χ ε α) :=
  ordered_of_trace_nil (fun _ => rfl)

theorem ordered_perform {β : Type} (lo hi : Nat) (op : Host χ → β × Host χ) :
    Ordered lo hi (perform op : Prog ρ χ ε β) :=
  ordered_of_trace_nil (fun _ => rfl)

theorem ordered_bind {α β : Type} {i j k l : Nat} {m : Prog ρ χ ε α}
    {f : α → Prog ρ χ ε β} (hm : Ordered i j m) (hf : ∀ a, Ordered k l (f a))
    (h1 : i ≤ k) (h2 : j ≤ k) (h3 : j ≤ l) : Ordered i l (Prog.bind m f) := by
  intro h
  cases hr : (m h).res with
  | error x =>
    rw [bind_error m f h x hr]
    refine ⟨(hm h).1, fun ev hev => ?_⟩
    have := (hm h).2 ev hev
    omega
  | ok a =>
    rw [bind_ok m f h a hr]
    have hfa := hf a (m h).host
    refine ⟨List.pairwise_append.2 ⟨(hm h).1, hfa.1, fun x hx y hy => ?_⟩, fun ev hev => ?_⟩
    · have := (hm h).2 x hx
      have := hfa.2 y hy
      omega
    · rcases List.mem_append.1 hev with hx | hy
      · have := (hm h).2 ev hx
        omega
      · have := hfa.2 ev hy
        omega

theorem ordered_callOp {β : Type} (k : Nat) (op : Host χ → β × Host χ) (ev : β → Event ρ ε)
    (hev : ∀ b, (ev b).call.phase = k) : Ordered k k (callOp op ev) := by
  intro h
  refine ⟨List.pairwise_singleton _ _, fun x hx => ?_⟩
  simp only [callOp, List.mem_singleton] at hx
  subst hx
  rw [hev]
  exact ⟨le_refl _, le_refl _⟩

theorem ordered_ite {α : Type} {lo hi : Nat} (c : Prop) [Decidable c] {p q : Prog ρ χ ε α}
    (hp : Ordered lo hi p) (hq : Ordered lo hi q) : Ordered lo hi (if c then p else q) := by
  split
  · exact hp
  · exact hq

theorem ordered_apply (c : Call ρ) (op : Host χ → Option ε × Host χ) :
    Ordered c.phase c.phase (apply c op) := by
  unfold apply exec
  refine ordered_bind (ordered_callOp c.phase _ _ (fun _ => rfl)) (fun err => ?_)
    (le_refl _) (le_refl _) (le_refl _)
  cases err
  · exact ordered_pure _ _ _
  · exact ordered_stop _ _ _

theorem ordered_forEach {α : Type} (k : Nat) (body : α → Prog ρ χ ε Unit)
    (hb : ∀ x, Ordered k k (body x)) : ∀ xs, Ordered k k (forEach body xs) := by
  intro xs
  induction xs with
  | nil => exact ordered_pure _ _ _
  | cons x rest ih =>
    unfold forEach
    exact ordered_bind (hb x) (fun _ => ih) (le_refl _) (le_refl _) (le_refl _)

theorem ordered_forEach_apply (k : Nat) (tag : ρ → Call ρ)
    (op : ρ → Host χ → Option ε × Host χ) (htag : ∀ x, (tag x).phase = k) (xs : List ρ) :
    Ordered k k (forEach (fun x => apply (tag x) (op x)) xs) := by
  apply ordered_forEach
  intro x
  have := ordered_apply (tag x) (op x)
  rwa [htag x] at this

theorem ordered_begin (env : Env ρ χ ε) : Ordered 1 1 (Begin (ρ := ρ) env) := by
  unfold Begin exec ask statMarker getNow
  simp only [bind_def, pure_def]
  refine ordered_bind (ordered_callOp 1 _ _ (fun _ => rfl)) (fun err => ?_)
    (le_refl _) (le_refl _) (le_refl _)
  cases err with
  | some e => exact ordered_stop _ _ _
  | none =>
    refine ordered_bind (ordered_callOp 1 _ _ (fun b => by cases b <;> rfl)) (fun info => ?_)
      (le_refl _) (le_refl _) (le_refl _)
    cases info with
    | otherErr e => exact ordered_stop _ _ _
    | notExist =>
      refine ordered_bind (ordered_callOp 1 _ _ (fun _ => rfl)) (fun err => ?_)
        (le_refl _) (le_refl _) (le_refl _)
      cases err with
      | some e => exact ordered_stop _ _ _
      | none =>
        refine ordered_bind (ordered_callOp 1 _ _ (fun _ => rfl)) (fun err => ?_)
          (le_refl _) (le_refl _) (le_refl _)
        cases err
        · exact ordered_pure _ _ _
        · exact ordered_stop _ _ _
    | found modTime =>
      refine ordered_bind (ordered_of_trace_nil (i := 1) (l := 1) (fun _ => rfl)) (fun now => ?_)
        (le_refl _) (le_refl _) (le_refl _)
      apply ordered_ite
      · refine ordered_bind (ordered_callOp 1 _ _ (fun _ => rfl)) (fun err => ?_)
          (le_refl _) (le_refl _) (le_refl _)
        refine ordered_bind (ordered_callOp 1 _ _ (fun _ => rfl)) (fun _ => ?_)
          (le_refl _) (le_refl _) (le_refl _)
        cases err
        · exact ordered_pure _ _ _
        · exact ordered_stop _ _ _
      · exact ordered_pure _ _ _

theorem ordered_installAll (k : Nat) (tag : ρ → Call ρ)
    (op : ρ → Host χ → (Bool × Option ε) × Host χ) (htag : ∀ x, (tag x).phase = k) :
    ∀ xs needed, Ordered k k (installAll tag op xs needed) := by
  intro xs
  induction xs with
  | nil => exact fun _ => ordered_pure _ _ _
  | cons x rest ih =>
    intro needed
    unfold installAll execB
    refine ordered_bind (ordered_callOp k _ _ (fun _ => htag x)) (fun r => ?_)
      (le_refl _) (le_refl _) (le_refl _)
    cases r.2
    · exact ih _
    · exact ordered_stop _ _ _

theorem ordered_collect (env : Env ρ χ ε) :
    ∀ xs acc, Ordered 6 6 (collect env xs acc) := by
  intro xs
  induction xs with
  | nil => exact fun _ => ordered_pure _ _ _
  | cons x rest ih =>
    intro acc
    unfold collect ask
    exact ordered_bind (ordered_callOp 6 _ _ (fun _ => rfl)) (fun r => ih _)
      (le_refl _) (le_refl _) (le_refl _)

theorem ordered_fetch (env : Env ρ χ ε) (uri : Url) : Ordered 8 8 (fetch (ρ := ρ) env uri) := by
  unfold fetch statDest exec
  simp only [bind_def, pure_def]
  refine ordered_bind (ordered_callOp 8 _ _ (fun _ => rfl)) (fun missing => ?_)
    (le_refl _) (le_refl _) (le_refl _)
  apply ordered_ite
  · exact ordered_pure _ _ _
  · refine ordered_bind (ordered_callOp 8 _ _ (fun _ => rfl)) (fun err => ?_)
      (le_refl _) (le_refl _) (le_refl _)
    cases err with
    | some e => exact ordered_pure _ _ _
    | none =>
      refine ordered_bind (ordered_callOp 8 _ _ (fun _ => rfl)) (fun err => ?_)
        (le_refl _) (le_refl _) (le_refl _)
      cases err with
      | some e => exact ordered_pure _ _ _
      | none =>
        exact ordered_bind (ordered_callOp 8 _ _ (fun _ => rfl)) (fun _ => ordered_pure _ _ _)
          (le_refl _) (le_refl _) (le_refl _)

theorem ordered_receive (env : Env ρ χ ε) (rawUrl : String) :
    Ordered 8 8 (receive (ρ := ρ) env rawUrl) := by
  unfold receive
  simp only [bind_def, pure_def]
  apply ordered_ite
  · exact ordered_pure _ _ _
  · cases env.parseUrl rawUrl with
    | none => exact ordered_stop _ _ _
    | some uri =>
      exact ordered_bind (ordered_fetch env uri) (fun _ => ordered_pure _ _ _)
        (le_refl _) (le_refl _) (le_refl _)

theorem ordered_send (env : Env ρ χ ε) (alive : Nat) (rawUrl : String) :
    Ordered 8 8 (send (ρ := ρ) env alive rawUrl) := by
  unfold send
  apply ordered_ite
  · exact ordered_stop _ _ _
  · exact ordered_bind (ordered_receive env rawUrl) (fun _ => ordered_pure _ _ _)
      (le_refl _) (le_refl _) (le_refl _)

theorem ordered_sendAll (env : Env ρ χ ε) :
    ∀ ls alive, Ordered 8 8 (sendAll (ρ := ρ) env ls alive) := by
  intro ls
  induction ls with
  | nil => exact fun _ => ordered_pure _ _ _
  | cons x rest ih =>
    intro alive
    unfold sendAll
    exact ordered_bind (ordered_send env alive x) (fun a => ih a)
      (le_refl _) (le_refl _) (le_refl _)

theorem ordered_archiveUrls (env : Env ρ χ ε) (pack : ρ) (alive : Nat) :
    Ordered 8 8 (archiveUrls env pack alive) := by
  unfold archiveUrls record
  simp only [bind_def, pure_def]
  refine ordered_bind (ordered_perform 8 8 _) (fun sent => ?_)
    (le_refl _) (le_refl _) (le_refl _)
  refine ordered_bind (ordered_sendAll env _ _) (fun alive1 => ?_)
    (le_refl _) (le_refl _) (le_refl _)
  exact ordered_bind (ordered_callOp 8 _ _ (fun _ => rfl)) (fun _ => ordered_pure _ _ _)
    (le_refl _) (le_refl _) (le_refl _)

theorem ordered_produce (env : Env ρ χ ε) :
    ∀ ps alive, Ordered 8 8 (produce env ps alive) := by
  intro ps
  induction ps with
  | nil => exact fun _ => ordered_pure _ _ _
  | cons p rest ih =>
    intro alive
    unfold produce
    refine ordered_bind (ordered_archiveUrls env p alive) (fun r => ?_)
      (le_refl _) (le_refl _) (le_refl _)
    cases r.2
    · exact ih _
    · exact ordered_stop _ _ _

theorem ordered_installPackage (env : Env ρ χ ε) (pack : ρ) :
    Ordered 11 11 (installPackage env pack) := by
  unfold installPackage exec
  refine ordered_bind (ordered_callOp 11 _ _ (fun _ => rfl)) (fun err => ?_)
    (le_refl _) (le_refl _) (le_refl _)
  cases err
  · exact ordered_pure _ _ _
  · exact ordered_stop _ _ _

theorem ordered_mark (k : Nat) (c : Call ρ) (hk : c.phase = k) :
    Ordered k k (mark c : Prog ρ χ ε Unit) := by
  unfold mark record
  exact ordered_callOp _ _ _ (fun _ => hk)

/-! ## Converge as the sequence of its four parts -/

theorem converge_eq (env : Env ρ χ ε) (m : Manifest ρ) :
    Converge env m =
      Prog.bind (convergeSources env m) (fun needed =>
        Prog.bind (forceRefresh env needed) (fun _ =>
          Prog.bind (convergePackages env m) (fun _ => convergeResources env m))) := by
  unfold Converge convergeSources forceRefresh convergePackages installPackages convergeResources
  simp only [bind_def, pure_def, bind_assoc]

theorem bind_ok_inv {α β : Type} {m : Prog ρ χ ε α} {f : α → Prog ρ χ ε β} {h : Host χ} {b : β}
    (hb : (Prog.bind m f h).res = .ok b) :
    ∃ a, (m h).res = .ok a ∧ (f a (m h).host).res = .ok b ∧
      (Prog.bind m f h).trace = (m h).trace ++ (f a (m h).host).trace := by
  cases hr : (m h).res with
  | error x =>
    rw [bind_error m f h x hr] at hb
    cases hb
  | ok a =>
    rw [bind_ok m f h a hr] at hb ⊢
    exact ⟨a, rfl, hb, rfl⟩

theorem ordered_convergeSources (env : Env ρ χ ε) (m : Manifest ρ) :
    Ordered 0 4 (convergeSources env m) := by
  unfold convergeSources
  simp only [bind_def, pure_def]
  refine ordered_bind (ordered_forEach_apply 0 Call.userCreate _ (fun _ => rfl) _) (fun _ => ?_)
    (k := 1) (by decide) (by decide) (by decide)
  refine ordered_bind (ordered_begin env) (fun _ => ?_) (k := 2)
    (by decide) (by decide) (by decide)
  refine ordered_bind (ordered_installAll 2 Call.slistInstall _ (fun _ => rfl) _ _) (fun _ => ?_)
    (k := 3) (by decide) (by decide) (by decide)
  refine ordered_bind (j := 3) (k := 4) ?_ (fun _ => ?_) (by decide) (by decide) (by decide)
  · exact ordered_ite _ (ordered_apply Call.checkInstall _) (ordered_pure _ _ _)
  · exact ordered_installAll 4 Call.ppaInstall _ (fun _ => rfl) _ _

theorem ordered_forceRefresh (env : Env ρ χ ε) (needed : Bool) :
    Ordered 5 5 (forceRefresh (ρ := ρ) env needed) := by
  unfold forceRefresh
  exact ordered_ite _ (ordered_apply Call.forceUpdate _) (ordered_pure _ _ _)

theorem ordered_installPackages (env : Env ρ χ ε) (ps : List ρ) :
    Ordered 7 11 (installPackages env ps) := by
  unfold installPackages
  simp only [bind_def, pure_def]
  apply ordered_ite
  · refine ordered_bind (ordered_mark 7 Call.spawnWorkers rfl) (fun _ => ?_) (k := 8)
      (by decide) (by decide) (by decide)
    refine ordered_bind (ordered_produce env _ _) (fun _ => ?_) (k := 9)
      (by decide) (by decide) (by decide)
    refine ordered_bind (ordered_mark 9 Call.closeChannel rfl) (fun _ => ?_) (k := 10)
      (by decide) (by decide) (by decide)
    refine ordered_bind (ordered_mark 10 Call.waitWorkers rfl) (fun _ => ?_) (k := 11)
      (by decide) (by decide) (by decide)
    exact ordered_forEach 11 _ (ordered_installPackage env) _
  · exact ordered_pure _ _ _

theorem ordered_convergePackages (env : Env ρ χ ε) (m : Manifest ρ) :
    Ordered 6 11 (convergePackages env m) := by
  unfold convergePackages
  simp only [bind_def, pure_def]
  exact ordered_bind (ordered_collect env _ _) (fun _ => ordered_installPackages env _)
    (by decide) (by decide) (by decide)

theorem ordered_convergeResources (env : Env ρ χ ε) (m : Manifest ρ) :
    Ordered 12 19 (convergeResources env m) := by
  unfold convergeResources
  simp only [bind_def, pure_def]
  refine ordered_bind (ordered_forEach_apply 12 Call.unpack _ (fun _ => rfl) _) (fun _ => ?_)
    (k := 13) (by decide) (by decide) (by decide)
  refine ordered_bind (ordered_forEach_apply 13 Call.dirCreate _ (fun _ => rfl) _) (fun _ => ?_)
    (k := 14) (by decide) (by decide) (by decide)
  refine ordered_bind (ordered_forEach_apply 14 Call.tmplCreate _ (fun _ => rfl) _) (fun _ => ?_)
    (k := 15) (by decide) (by decide) (by decide)
  refine ordered_bind (ordered_forEach_apply 15 Call.symlinkCreate _ (fun _ => rfl) _)
    (fun _ => ?_) (k := 16) (by decide) (by decide) (by decide)
  refine ordered_bind (ordered_forEach_apply 16 Call.dbCreate _ (fun _ => rfl) _) (fun _ => ?_)
    (k := 17) (by decide) (by decide) (by decide)
  refine ordered_bind (ordered_forEach_apply 17 Call.dbuCreate _ (fun _ => rfl) _) (fun _ => ?_)
    (k := 18) (by decide) (by decide) (by decide)
  refine ordered_bind (ordered_forEach_apply 18 Call.bundleInstall _ (fun _ => rfl) _)
    (fun _ => ?_) (k := 19) (by decide) (by decide) (by decide)
  exact ordered_forEach_apply 19 Call.svcCreate _ (fun _ => rfl) _

theorem ordered_converge (env : Env ρ χ ε) (m : Manifest ρ) : Ordered 0 19 (Converge env m) := by
  rw [converge_eq]
  refine ordered_bind (ordered_convergeSources env m) (fun _ => ?_) (k := 5)
    (by decide) (by decide) (by decide)
  refine ordered_bind (ordered_forceRefresh env _) (fun _ => ?_) (k := 6)
    (by decide) (by decide) (by decide)
  exact ordered_bind (ordered_convergePackages env m) (fun _ => ordered_convergeResources env m)
    (by decide) (by decide) (by decide)

/-! ## Manifest.Add -/

/-- C3: after `base.Add(other)` each of the twelve sequences of `base` is its
old sequence followed by the sequence of `other` of the same kind, and adding
`B` and then `C` to `A` gives the same manifest as adding to `A` the result of
adding `C` to `B`. -/
theorem add_appends_every_kind (A B C : Manifest ρ) :
    (A.Add B).SourceLists = A.SourceLists ++ B.SourceLists ∧
    (A.Add B).Packages = A.Packages ++ B.Packages ∧
    (A.Add B).Directories = A.Directories ++ B.Directories ∧
    (A.Add B).Templates = A.Templates ++ B.Templates ∧
    (A.Add B).PackageArchives = A.PackageArchives ++ B.PackageArchives ∧
    (A.Add B).Tarballs = A.Tarballs ++ B.Tarballs ∧
    (A.Add B).Users = A.Users ++ B.Users ∧
    (A.Add B).Symlinks = A.Symlinks ++ B.Symlinks ∧
    (A.Add B).Services = A.Services ++ B.Services ∧
    (A.Add B).Databases = A.Databases ++ B.Databases ∧
    (A.Add B).DatabaseUsers = A.DatabaseUsers ++ B.DatabaseUsers ∧
    (A.Add B).RubyBundles = A.RubyBundles ++ B.RubyBundles ∧
    (A.Add B).Add C = A.Add (B.Add C) := by
  simp [Manifest.Add]

/-! ## Manifest.Begin -/

theorem addDays_week (t now : Time) : t < addDays now (-7) ↔ t < now - 7 * 86400 := by
  unfold addDays
  constructor <;> intro h <;> linarith

/-- C4, as stated, fails: on a host whose marker is eight days old and on which
`os.Chtimes` fails, `Begin` runs the refresh and returns `nil`, and the marker
keeps its old modification time. -/
theorem stale_marker_kept_when_chtimes_fails :
    (chtimesFails.mkdirAll (hostAt 1000000 (some 308800))).1 = none ∧
    (hostAt 1000000 (some 308800)).marker = some 308800 ∧
    (308800 : Time) < (hostAt 1000000 (some 308800)).now - 7 * 86400 ∧
    (Begin (ρ := String) chtimesFails (hostAt 1000000 (some 308800))).trace =
      [⟨Call.mkdirAll, false, none⟩, ⟨Call.statMarker, true, none⟩,
        ⟨Call.aptUpdate, false, none⟩, ⟨Call.chtimes, false, none⟩] ∧
    (Begin (ρ := String) chtimesFails (hostAt 1000000 (some 308800))).res = Except.ok () ∧
    (Begin (ρ := String) chtimesFails (hostAt 1000000 (some 308800))).host.marker =
      some 308800 :=
  ⟨rfl, rfl, by decide, by decide, rfl, rfl⟩

/-- C4, amended: when the state directory can be created and `os.Stat` finds the
marker with modification time `t`, `Begin` runs `apt-get update` exactly when
`t` is strictly earlier than now minus seven days (so it does for a marker eight
days old and does not for a marker one day old). When it runs it, it calls
`os.Chtimes` whether the refresh succeeded or failed; the marker's modification
time afterwards is now when that call succeeded and still `t` when it failed,
and the result of `Begin` is the result of the refresh. When it does not run
it, `Begin` returns `nil`, its only calls are the `MkdirAll` and the `Stat`, and
the marker is unchanged. -/
theorem begin_refreshes_iff_stale (env : Env ρ χ ε) (h : Host χ) (t : Time)
    (hdir : (env.mkdirAll h).1 = none)
    (hstat : (env.statErr (sys env.mkdirAll h).2).1 = none)
    (hmark : h.marker = some t) :
    (Call.aptUpdate ∈ (Begin env h).trace.map Event.call ↔ t < h.now - 7 * 86400) ∧
    (t = h.now - 8 * 86400 → Call.aptUpdate ∈ (Begin env h).trace.map Event.call) ∧
    (t = h.now - 1 * 86400 → Call.aptUpdate ∉ (Begin env h).trace.map Event.call) ∧
    (t < h.now - 7 * 86400 →
      (∃ touched, (⟨Call.chtimes, touched, none⟩ : Event ρ ε) ∈ (Begin env h).trace ∧
        (Begin env h).host.marker = some (if touched then h.now else t)) ∧
      ∃ err, (⟨Call.aptUpdate, false, err⟩ : Event ρ ε) ∈ (Begin env h).trace ∧
        (Begin env h).res =
          (match err with
          | none => Except.ok ()
          | some e => Except.error (Exit.err e))) ∧
    (¬ t < h.now - 7 * 86400 →
      (Begin env h).res = Except.ok () ∧
      (Begin env h).trace.map Event.call = [Call.mkdirAll, Call.statMarker] ∧
      (Begin env h).host.marker = some t) := by
  obtain ⟨now, marker, files, ext⟩ := h
  simp only at hmark
  subst hmark
  simp only [sys] at hstat
  by_cases hlt : t < now - 7 * 86400
  · have hlt2 := (addDays_week t now).2 hlt
    cases hupd : (env.aptUpdate { now := now, marker := some t, files := files, ext := (env.statErr { now := now, marker := some t, files := files, ext := (env.mkdirAll { now := now, marker := some t, files := files, ext := ext }).2 }).2 }).1 <;>
    cases hch : (env.chtimes { now := now, marker := some t, files := files, ext := (env.aptUpdate { now := now, marker := some t, files := files, ext := (env.statErr { now := now, marker := some t, files := files, ext := (env.mkdirAll { now := now, marker := some t, files := files, ext := ext }).2 }).2 }).2 }).1 <;>
    simp [Begin, bind_def, pure_def, Prog.bind, Prog.pure, exec, ask, callOp, sys, statMarker,
      getNow, stop, chtimes, hdir, hstat, hlt, hlt2, hupd, hch] <;>
    refine ⟨by linarith, fun h1 => by linarith, by linarith⟩
  · have hlt2 : ¬ t < addDays now (-7) := fun x => hlt ((addDays_week t now).1 x)
    simp [Begin, bind_def, pure_def, Prog.bind, Prog.pure, exec, ask, callOp, sys, statMarker,
      getNow, stop, chtimes, hdir, hstat, hlt, hlt2]
    have hge := not_lt.mp hlt
    refine ⟨by linarith, fun h8 => ?_, by linarith⟩
    rw [h8] at hge
    linarith

/-- The statement of the amended C4 on a marker eight days old, with a
`Chtimes` that fails. -/
theorem begin_refreshes_iff_stale_witness :
    (chtimesFails.mkdirAll (hostAt 1000000 (some 308800))).1 = none ∧
    (chtimesFails.statErr (sys chtimesFails.mkdirAll (hostAt 1000000 (some 308800))).2).1 =
      none ∧
    (hostAt 1000000 (some 308800)).marker = some 308800 ∧
    Call.aptUpdate ∈
      (Begin (ρ := String) chtimesFails (hostAt 1000000 (some 308800))).trace.map Event.call :=
  ⟨rfl, rfl, rfl,
    (begin_refreshes_iff_stale (ρ := String) chtimesFails (hostAt 1000000 (some 308800)) 308800
      rfl rfl rfl).2.1 (by decide)⟩

/-- C5, as stated, fails: on a host without marker on which the refresh fails,
`Begin` returns the refresh error and the marker exists afterwards, so that a
second `Begin` on the host it left does not run the refresh. -/
theorem begin_failed_refresh_leaves_marker :
    (hostAt 1000000 none).marker = none ∧
    (Begin (ρ := String) refreshFails (hostAt 1000000 none)).res =
      Except.error (Exit.err "exit status 100") ∧
    (Begin (ρ := String) refreshFails (hostAt 1000000 none)).host.marker = some 1000000 ∧
    Call.aptUpdate ∉
      (Begin (ρ := String) refreshFails
        (Begin (ρ := String) refreshFails (hostAt 1000000 none)).host).trace.map Event.call :=
  ⟨rfl, rfl, rfl, by decide⟩

/-- C5, amended: when the state directory can be created and `os.Stat` finds no
marker, `Begin` creates the marker before anything else. If the creation fails
it returns that error, runs no refresh and leaves no marker. Otherwise it runs
`apt-get update`, the marker exists afterwards with modification time now
whether the refresh succeeded or failed, and the result of `Begin` is the result
of the refresh. A later `Begin` that finds this marker less than seven days old
runs no refresh. -/
theorem begin_creates_marker_then_refreshes (env : Env ρ χ ε) (h : Host χ)
    (hdir : (env.mkdirAll h).1 = none)
    (hstat : (env.statErr (sys env.mkdirAll h).2).1 = none)
    (hmark : h.marker = none) :
    (∃ created, (⟨Call.createMarker, false, created⟩ : Event ρ ε) ∈ (Begin env h).trace ∧
      match created with
      | some e =>
        (Begin env h).res = Except.error (Exit.err e) ∧
        Call.aptUpdate ∉ (Begin env h).trace.map Event.call ∧
        (Begin env h).host.marker = none
      | none =>
        (Begin env h).host.marker = some h.now ∧
        ∃ err, (⟨Call.aptUpdate, false, err⟩ : Event ρ ε) ∈ (Begin env h).trace ∧
          (Begin env h).res =
            (match err with
            | none => Except.ok ()
            | some e => Except.error (Exit.err e))) ∧
    (∀ (env2 : Env ρ χ ε) (h2 : Host χ), h2.marker = some h.now →
      ¬ h.now < h2.now - 7 * 86400 →
      Call.aptUpdate ∉ (Begin env2 h2).trace.map Event.call) := by
  constructor
  · obtain ⟨now, marker, files, ext⟩ := h
    simp only at hmark
    subst hmark
    simp only [sys] at hstat
    cases hcr : (env.createMarker { now := now, marker := none, files := files, ext := (env.statErr { now := now, marker := none, files := files, ext := (env.mkdirAll { now := now, marker := none, files := files, ext := ext }).2 }).2 }).1 with
    | some e =>
      refine ⟨some e, ?_⟩
      simp [Begin, bind_def, pure_def, Prog.bind, Prog.pure, exec, callOp, sys, statMarker,
        stop, createMarker, hdir, hstat, hcr]
    | none =>
      refine ⟨none, ?_⟩
      cases hupd : (env.aptUpdate { now := now, marker := some now, files := files, ext := (env.createMarker { now := now, marker := none, files := files, ext := (env.statErr { now := now, marker := none, files := files, ext := (env.mkdirAll { now := now, marker := none, files := files, ext := ext }).2 }).2 }).2 }).1 <;>
      simp [Begin, bind_def, pure_def, Prog.bind, Prog.pure, exec, callOp, sys, statMarker,
        stop, createMarker, hdir, hstat, hcr, hupd]
  · intro env2 h2 hm2 hfresh
    obtain ⟨now2, marker2, files2, ext2⟩ := h2
    simp only at hm2 hfresh
    subst hm2
    have hlt2 : ¬ h.now < addDays now2 (-7) := fun x => hfresh ((addDays_week h.now now2).1 x)
    cases hd : (env2.mkdirAll { now := now2, marker := some h.now, files := files2, ext := ext2 }).1 with
    | some e =>
      simp [Begin, bind_def, pure_def, Prog.bind, Prog.pure, exec, callOp, sys, stop, hd]
    | none =>
      cases hs : (env2.statErr { now := now2, marker := some h.now, files := files2, ext := (env2.mkdirAll { now := now2, marker := some h.now, files := files2, ext := ext2 }).2 }).1 <;>
      simp [Begin, bind_def, pure_def, Prog.bind, Prog.pure, exec, callOp, sys, statMarker,
        getNow, stop, hd, hs, hlt2]

/-- The statement of the amended C5 on a host without marker on which the
refresh fails. -/
theorem begin_creates_marker_then_refreshes_witness :
    (refreshFails.mkdirAll (hostAt 1000000 none)).1 = none ∧
    (refreshFails.statErr (sys refreshFails.mkdirAll (hostAt 1000000 none)).2).1 = none ∧
    (hostAt 1000000 none).marker = none ∧
    ∀ (env2 : Env String Unit String) (h2 : Host Unit),
      h2.marker = some (hostAt 1000000 none).now →
      ¬ (hostAt 1000000 none).now < h2.now - 7 * 86400 →
      Call.aptUpdate ∉ (Begin env2 h2).trace.map Event.call :=
  ⟨rfl, rfl, rfl,
    (begin_creates_marker_then_refreshes (ρ := String) refreshFails (hostAt 1000000 none)
      rfl rfl rfl).2⟩

/-! ## Converge stops at the first failure -/

theorem split_cases {α : Type} {pre post pre2 post2 : List α} {x y : α}
    (h : pre ++ x :: post = pre2 ++ y :: post2) :
    x ∈ pre2 ∨ (pre = pre2 ∧ x = y ∧ post = post2) ∨ x ∈ post2 := by
  induction pre generalizing pre2 with
  | nil =>
    cases pre2 with
    | nil =>
      simp only [List.nil_append, List.cons.injEq] at h
      exact Or.inr (Or.inl ⟨rfl, h.1, h.2⟩)
    | cons z rest =>
      simp only [List.nil_append, List.cons_append, List.cons.injEq] at h
      left
      rw [h.1]
      exact List.mem_cons_self _ _
  | cons a pre ih =>
    cases pre2 with
    | nil =>
      simp only [List.nil_append, List.cons_append, List.cons.injEq] at h
      right
      right
      rw [← h.2]
      simp
    | cons z rest =>
      simp only [List.cons_append, List.cons.injEq] at h
      rcases ih h.2 with h1 | ⟨h1, h2, h3⟩ | h1
      · exact Or.inl (List.mem_cons_of_mem _ h1)
      · exact Or.inr (Or.inl ⟨by rw [h.1, h1], h2, h3⟩)
      · exact Or.inr (Or.inr h1)

theorem onFailure_of_returnsError (c : Call ρ) (e : ε) (hc : c.returnsError = true) :
    c.onFailure e = some (Exit.err e) ∧ c.isFetch = false := by
  cases c <;> simp_all [Call.onFailure, Call.returnsError, Call.isFetch]

theorem failStop_returns {α : Type} {r : Run ρ χ ε α} (hr : r.FailStop κ)
    {pre post : List (Event ρ ε)} {ev : Event ρ ε} {e : ε}
    (ht : r.trace = pre ++ ev :: post) (he : ev.err = some e)
    (hc : ev.call.returnsError = true) :
    r.res = Except.error (Exit.err e) ∧ Quiet pre ∧
      ∀ y ∈ post, y.call = Call.chtimes ∧ ev.call = Call.aptUpdate := by
  have hf := onFailure_of_returnsError ev.call e hc
  have hnq : ¬ (ev.err = none ∨ ev.call.isFetch = true) := by
    rw [he, hf.2]
    simp
  have hmem : ev ∈ r.trace := by
    rw [ht]
    simp
  cases hres : r.res with
  | ok a =>
    simp only [Run.FailStop, hres] at hr
    exact absurd (hr ev hmem) hnq
  | error x =>
    simp only [Run.FailStop, hres] at hr
    rcases hr with ⟨pre2, ev2, post2, ht2, hq, hs, hp⟩ | ⟨_, _, hq⟩
    · rw [ht] at ht2
      rcases split_cases ht2 with h1 | ⟨h1, h2, h3⟩ | h1
      · exact absurd (hq ev h1) hnq
      · subst h1 h2 h3
        have : ev.stops = some (Exit.err e) := by simp [Event.stops, he, hf.1]
        rw [this] at hs
        cases hs
        exact ⟨rfl, hq, hp⟩
      · have := (hp ev h1).1
        rw [this] at hc
        cases hc
    · exact absurd (hq ev hmem) hnq

/-- C2: when a call whose error the program returns fails with `e` (a user, a
step of `Begin`, a source list, the archive tool, a package archive, the forced
refresh, or one of the eight kinds applied after the packages), `Converge`
returns exactly `e`, no call before it failed apart from fetches, and no call
follows it, except the `Chtimes` that `Begin` issues after its own failed
refresh. `Converge` returns `nil` only if no call failed, fetches apart. -/
theorem converge_returns_first_error (env : Env ρ χ ε) (m : Manifest ρ) (h : Host χ) :
    (∀ pre ev post e, (Converge env m h).trace = pre ++ ev :: post →
      ev.err = some e → ev.call.returnsError = true →
      (Converge env m h).res = Except.error (Exit.err e) ∧
      (∀ x ∈ pre, x.err = none ∨ x.call.isFetch = true) ∧
      (∀ y ∈ post, y.call = Call.chtimes ∧ ev.call = Call.aptUpdate)) ∧
    ((Converge env m h).res = Except.ok () →
      ∀ ev ∈ (Converge env m h).trace, ev.err = none ∨ ev.call.isFetch = true) := by
  have hfs := failStop_converge env m h
  constructor
  · intro pre ev post e ht he hc
    exact failStop_returns hfs ht he hc
  · intro hok
    simpa [Run.FailStop, hok] using hfs

/-- The statement of C2 on a run in which the template fails: `Converge` returns
the error of the template, which is its last call. -/
theorem converge_returns_first_error_witness :
    (Converge templateFails (manifestOf "a") (hostAt 0 none)).trace =
      (Converge templateFails (manifestOf "a") (hostAt 0 none)).trace.dropLast ++
        [⟨Call.tmplCreate "a-tmpl", false, some "permission denied"⟩] ∧
    (Converge templateFails (manifestOf "a") (hostAt 0 none)).res =
      Except.error (Exit.err "permission denied") :=
  ⟨by decide,
    ((converge_returns_first_error templateFails (manifestOf "a") (hostAt 0 none)).1
      (Converge templateFails (manifestOf "a") (hostAt 0 none)).trace.dropLast
      ⟨Call.tmplCreate "a-tmpl", false, some "permission denied"⟩ [] "permission denied"
      (by decide) rfl rfl).1⟩

/-! ## The destination of a locator -/

theorem splitSlash_segment (name : List Char) (hns : '/' ∉ name) : splitSlash name = [name] := by
  induction name with
  | nil => rfl
  | cons c cs ih =>
    have hc : c ≠ '/' := fun hc => hns (by simp [hc])
    have hcs : '/' ∉ cs := fun hcs => hns (List.mem_cons_of_mem _ hcs)
    simp [splitSlash, hc, ih hcs]

theorem dropWhile_slashes (k : Nat) (rest : List Char) (hrest : rest.head? ≠ some '/') :
    (List.replicate k '/' ++ rest).dropWhile (fun c => c = '/') = rest := by
  induction k with
  | zero =>
    cases rest with
    | nil => rfl
    | cons c cs =>
      have hc : c ≠ '/' := fun hc => hrest (by simp [hc])
      simp [List.dropWhile, hc]
  | succ k ih =>
    simp [List.replicate_succ, List.dropWhile, ih]

theorem takeWhile_segment (name rest : List Char) (hns : '/' ∉ name)
    (hrest : rest = [] ∨ rest.head? = some '/') :
    (name ++ rest).takeWhile (fun c => c ≠ '/') = name := by
  induction name with
  | nil =>
    rcases hrest with hnil | hhead
    · simp [hnil]
    · cases rest with
      | nil => rfl
      | cons c cs =>
        have hc : c = '/' := by simpa using hhead
        simp [List.takeWhile, hc]
  | cons c cs ih =>
    have hc : c ≠ '/' := fun hc => hns (by simp [hc])
    have hcs : '/' ∉ cs := fun hcs => hns (List.mem_cons_of_mem _ hcs)
    have hrec := ih hcs
    simp only [ne_eq, decide_not] at hrec
    simp [List.takeWhile, hc, hrec]

/-- `path.Base` of a path whose last element is `name`: the element itself,
whatever precedes it and however many slashes follow it. -/
theorem pathBase_segment (pre name : List Char) (k : Nat) (hne : name ≠ [])
    (hns : '/' ∉ name) (hpre : pre = [] ∨ pre.getLast? = some '/') :
    pathBase (String.mk (pre ++ name ++ List.replicate k '/')) = String.mk name := by
  have hrev : (pre ++ name ++ List.replicate k '/').reverse =
      List.replicate k '/' ++ (name.reverse ++ pre.reverse) := by
    simp [List.reverse_append, List.reverse_replicate]
  have hhead : (name.reverse ++ pre.reverse).head? ≠ some '/' := by
    cases hn : name.reverse with
    | nil => exact absurd (List.reverse_eq_nil_iff.1 hn) hne
    | cons c cs =>
      have hc : c ∈ name := by
        rw [← List.mem_reverse, hn]
        exact List.mem_cons_self _ _
      intro heq
      simp at heq
      exact hns (heq ▸ hc)
  have hpre2 : pre.reverse = [] ∨ pre.reverse.head? = some '/' := by
    rcases hpre with h0 | h1
    · left
      simp [h0]
    · right
      simpa [List.head?_reverse] using h1
  have hns2 : '/' ∉ name.reverse := by simpa using hns
  have hnonempty : pre ++ name ++ List.replicate k '/' ≠ [] := by
    cases name with
    | nil => exact absurd rfl hne
    | cons c cs => simp
  unfold pathBase
  simp only [hnonempty, if_false]
  simp only [hrev, dropWhile_slashes k _ hhead, List.reverse_reverse, List.reverse_append,
    takeWhile_segment name.reverse pre.reverse hns2 hpre2]
  simp [hne]

/-- `filepath.Join` of the cache directory and an element that is neither
empty nor `.` nor `..`: the directory, a slash, the element. -/
theorem filepathJoin_segment (name : List Char) (hne : name ≠ []) (hns : '/' ∉ name)
    (hdot : name ≠ ['.']) (hdots : name ≠ ['.', '.']) :
    filepathJoin cacheDir (String.mk name) =
      String.mk ("/var/cache/apt/archives/".data ++ name) := by
  have hs := splitSlash_segment name hns
  simp [filepathJoin, cacheDir, hne, filepathClean, splitSlash, hs, cleanElems, hdot, hdots,
    List.intercalate, List.intersperse]

theorem destination_segment (pre name : List Char) (k : Nat) (full : String) (hne : name ≠ [])
    (hns : '/' ∉ name) (hdot : name ≠ ['.']) (hdots : name ≠ ['.', '.'])
    (hpre : pre = [] ∨ pre.getLast? = some '/') :
    destination ⟨String.mk (pre ++ name ++ List.replicate k '/'), full⟩ =
      String.mk ("/var/cache/apt/archives/".data ++ name) := by
  unfold destination
  rw [pathBase_segment pre name k hne hns hpre, filepathJoin_segment name hne hns hdot hdots]

/-! ## The fetch worker -/

theorem fetch_spec (env : Env ρ χ ε) (uri : Url) (h : Host χ) :
    (fetch (ρ := ρ) env uri h).res = Except.ok () ∧
    (∀ f ∈ h.files, f ∈ (fetch (ρ := ρ) env uri h).host.files) ∧
    statted (fetch (ρ := ρ) env uri h).trace = [destination uri] ∧
    (destination uri ∈ h.files →
      (fetch (ρ := ρ) env uri h).trace = [⟨Call.statDest (destination uri), true, none⟩]) ∧
    (downloads (fetch (ρ := ρ) env uri h).trace = [] ∨
      (downloads (fetch (ρ := ρ) env uri h).trace = [(uri.full, destination uri)] ∧
        destination uri ∉ h.files ∧
        destination uri ∈ (fetch (ρ := ρ) env uri h).host.files)) ∧
    (destination uri ∉ h.files → (env.statDest (destination uri) h).1 = none →
      (env.createDest (destination uri)
        { h with ext := (env.statDest (destination uri) h).2 }).1 = none →
      downloads (fetch (ρ := ρ) env uri h).trace = [(uri.full, destination uri)] ∧
      destination uri ∈ (fetch (ρ := ρ) env uri h).host.files) := by
  obtain ⟨now, marker, files, ext⟩ := h
  by_cases hmem : destination uri ∈ files
  · simp [fetch, bind_def, pure_def, Prog.bind, Prog.pure, statDest, callOp, downloads, statted,
      hmem]
  · cases hs : (env.statDest (destination uri) { now := now, marker := marker, files := files, ext := ext }).1 with
    | some e =>
      simp [fetch, bind_def, pure_def, Prog.bind, Prog.pure, statDest, callOp, downloads,
        statted, hmem, hs]
    | none =>
      cases hc : (env.createDest (destination uri) { now := now, marker := marker, files := files, ext := (env.statDest (destination uri) { now := now, marker := marker, files := files, ext := ext }).2 }).1 with
      | some e =>
        simp [fetch, bind_def, pure_def, Prog.bind, Prog.pure, statDest, callOp, exec,
          createDest, downloads, statted, hmem, hs, hc]
      | none =>
        cases hg : (env.httpGet uri.full { now := now, marker := marker, files := destination uri :: files, ext := (env.createDest (destination uri) { now := now, marker := marker, files := files, ext := (env.statDest (destination uri) { now := now, marker := marker, files := files, ext := ext }).2 }).2 }).1 with
        | some e =>
          simp [fetch, bind_def, pure_def, Prog.bind, Prog.pure, statDest, callOp, exec,
            createDest, sys, downloads, statted, hmem, hs, hc, hg]
          intro f hf
          exact Or.inr hf
        | none =>
          simp [fetch, bind_def, pure_def, Prog.bind, Prog.pure, statDest, callOp, exec,
            createDest, sys, downloads, statted, hmem, hs, hc, hg]
          intro f hf
          exact Or.inr hf

theorem downloads_append (s t : List (Event ρ ε)) :
    downloads (s ++ t) = downloads s ++ downloads t := by
  simp [downloads, List.filterMap_append]

theorem statted_append (s t : List (Event ρ ε)) :
    statted (s ++ t) = statted s ++ statted t := by
  simp [statted, List.filterMap_append]

theorem receive_of_parsed (env : Env ρ χ ε) (rawUrl : String) (uri : Url)
    (hlen : rawUrl.length ≠ 0) (hparse : env.parseUrl rawUrl = some uri) :
    receive (ρ := ρ) env rawUrl = Prog.bind (fetch env uri) (fun _ => Prog.pure true) := by
  unfold receive
  simp only [bind_def, pure_def, hlen, if_false, hparse]

theorem worker_cons_parsed (env : Env ρ χ ε) (rawUrl : String) (rest : List String) (uri : Url)
    (hlen : rawUrl.length ≠ 0) (hparse : env.parseUrl rawUrl = some uri) (h : Host χ) :
    worker (ρ := ρ) env (rawUrl :: rest) h =
      ⟨(worker (ρ := ρ) env rest (fetch (ρ := ρ) env uri h).host).res,
        (worker (ρ := ρ) env rest (fetch (ρ := ρ) env uri h).host).host,
        (fetch (ρ := ρ) env uri h).trace ++
          (worker (ρ := ρ) env rest (fetch (ρ := ρ) env uri h).host).trace⟩ := by
  have hf := (fetch_spec (ρ := ρ) env uri h).1
  rw [worker, receive_of_parsed env rawUrl uri hlen hparse]
  simp [Prog.bind, Prog.pure, hf]

theorem worker_cons_cases (env : Env ρ χ ε) (rawUrl : String) (rest : List String)
    (h : Host χ) :
    ((worker (ρ := ρ) env (rawUrl :: rest) h).trace = [] ∧
      (worker (ρ := ρ) env (rawUrl :: rest) h).host = h) ∨
    ∃ uri, rawUrl.length ≠ 0 ∧ env.parseUrl rawUrl = some uri ∧
      worker (ρ := ρ) env (rawUrl :: rest) h =
        ⟨(worker (ρ := ρ) env rest (fetch (ρ := ρ) env uri h).host).res,
          (worker (ρ := ρ) env rest (fetch (ρ := ρ) env uri h).host).host,
          (fetch (ρ := ρ) env uri h).trace ++
            (worker (ρ := ρ) env rest (fetch (ρ := ρ) env uri h).host).trace⟩ := by
  by_cases hlen : rawUrl.length = 0
  · left
    simp [worker, receive, pure_def, Prog.bind, Prog.pure, hlen]
  · cases hparse : env.parseUrl rawUrl with
    | none =>
      left
      simp [worker, receive, Prog.bind, stop, hlen, hparse]
    | some uri =>
      right
      exact ⟨uri, hlen, rfl, worker_cons_parsed env rawUrl rest uri hlen hparse h⟩

theorem worker_downloads (env : Env ρ χ ε) :
    ∀ (ls : List String) (h : Host χ),
      (∀ f ∈ h.files, f ∈ (worker (ρ := ρ) env ls h).host.files) ∧
      (∀ d ∈ (downloads (worker (ρ := ρ) env ls h).trace).map Prod.snd,
        d ∉ h.files ∧ d ∈ (worker (ρ := ρ) env ls h).host.files) ∧
      ((downloads (worker (ρ := ρ) env ls h).trace).map Prod.snd).Nodup := by
  intro ls
  induction ls with
  | nil =>
    intro h
    simp [worker, Prog.pure, downloads]
  | cons rawUrl rest ih =>
    intro h
    rcases worker_cons_cases env rawUrl rest h with ⟨ht, hh⟩ | ⟨uri, _, _, heq⟩
    · rw [ht, hh]
      simp [downloads]
    · rw [heq]
      simp only [downloads_append, List.map_append]
      obtain ⟨_, hfiles, _, _, hdl, _⟩ := fetch_spec (ρ := ρ) env uri h
      obtain ⟨ih1, ih2, ih3⟩ := ih (fetch (ρ := ρ) env uri h).host
      refine ⟨fun f hf => ih1 f (hfiles f hf), ?_, ?_⟩
      · intro d hd
        rcases List.mem_append.1 hd with hd1 | hd2
        · rcases hdl with hnil | ⟨hone, hnot, hin⟩
          · rw [hnil] at hd1
            cases hd1
          · rw [hone] at hd1
            simp only [List.map_cons, List.map_nil, List.mem_singleton] at hd1
            subst hd1
            exact ⟨hnot, ih1 _ hin⟩
        · exact ⟨fun hf => (ih2 d hd2).1 (hfiles d hf), (ih2 d hd2).2⟩
      · rw [List.nodup_append]
        refine ⟨?_, ih3, ?_⟩
        · rcases hdl with hnil | ⟨hone, _⟩
          · rw [hnil]
            exact List.nodup_nil
          · rw [hone]
            simp
        · intro d hd1 hd2
          rcases hdl with hnil | ⟨hone, _, hin⟩
          · rw [hnil] at hd1
            cases hd1
          · rw [hone] at hd1
            simp only [List.map_cons, List.map_nil, List.mem_singleton] at hd1
            subst hd1
            exact (ih2 _ hd2).1 hin

theorem worker_handles_all (env : Env ρ χ ε) :
    ∀ (ls : List String) (uris : List Url) (h : Host χ),
      (∀ u ∈ ls, u.length ≠ 0) → ls.map env.parseUrl = uris.map some →
      (worker (ρ := ρ) env ls h).res = Except.ok () ∧
      statted (worker (ρ := ρ) env ls h).trace = uris.map destination := by
  intro ls
  induction ls with
  | nil =>
    intro uris h _ hp
    cases uris with
    | nil => simp [worker, Prog.pure, statted]
    | cons u us => simp at hp
  | cons rawUrl rest ih =>
    intro uris h hlen hp
    cases uris with
    | nil => simp at hp
    | cons uri us =>
      simp only [List.map_cons, List.cons.injEq] at hp
      rw [worker_cons_parsed env rawUrl rest uri (hlen _ (List.mem_cons_self _ _)) hp.1 h]
      obtain ⟨ih1, ih2⟩ := ih us (fetch (ρ := ρ) env uri h).host
        (fun u hu => hlen u (List.mem_cons_of_mem _ hu)) hp.2
      refine ⟨ih1, ?_⟩
      simp only [statted_append, (fetch_spec (ρ := ρ) env uri h).2.2.1, ih2, List.map_cons,
        List.singleton_append]

theorem mem_downloads_of_mem {t : List (Event ρ ε)} {url dest : String} {flag : Bool}
    {err : Option ε} (h : (⟨Call.httpGet url dest, flag, err⟩ : Event ρ ε) ∈ t) :
    (url, dest) ∈ downloads t := by
  unfold downloads
  rw [List.mem_filterMap]
  exact ⟨_, h, rfl⟩

/-- C8, as stated, fails: the two locators `http://x/a/pkg.deb` and
`http://x/b/pkg.deb` have the same destination, absent from the cache at the
start; when `os.Create` fails, the worker checks and tries to create the
destination for the first and again for the second, and downloads neither:
the first is not downloaded and the second is not skipped at the check. -/
theorem failed_create_downloads_neither :
    destination ⟨"/a/pkg.deb", "http://x/a/pkg.deb"⟩ =
      destination ⟨"/b/pkg.deb", "http://x/b/pkg.deb"⟩ ∧
    (hostAt 0 none).files = [] ∧
    (worker (ρ := String) createFails ["http://x/a/pkg.deb", "http://x/b/pkg.deb"]
        (hostAt 0 none)).trace =
      [⟨Call.statDest "/var/cache/apt/archives/pkg.deb", false, none⟩,
        ⟨Call.createDest "/var/cache/apt/archives/pkg.deb", false, some "permission denied"⟩,
        ⟨Call.statDest "/var/cache/apt/archives/pkg.deb", false, none⟩,
        ⟨Call.createDest "/var/cache/apt/archives/pkg.deb", false, some "permission denied"⟩] ∧
    downloads (worker (ρ := String) createFails ["http://x/a/pkg.deb", "http://x/b/pkg.deb"]
        (hostAt 0 none)).trace = [] := by
  decide

/-- C8, amended: the destination of a locator whose path ends in the element
`name` (not empty, not `.` or `..`, without a slash, after nothing or a slash
and before any number of slashes) is `/var/cache/apt/archives/name`, and the
destination is the only path a fetch checks or downloads into; a fetch whose
destination exists stops after the check; in the trace of a worker no
download goes to a destination that existed at the start and no two downloads
go to the same destination; of two locators with the same destination at most
one is downloaded, and when the destination is absent at the start and
`os.Stat` and `os.Create` succeed for the first, exactly the first is
downloaded, the second stopping after the check. -/
theorem worker_downloads_each_destination_once (env : Env ρ χ ε) (ls : List String)
    (h : Host χ) :
    (∀ (pre name : List Char) (k : Nat) (full : String), name ≠ [] → '/' ∉ name →
      name ≠ ['.'] → name ≠ ['.', '.'] → (pre = [] ∨ pre.getLast? = some '/') →
      destination ⟨String.mk (pre ++ name ++ List.replicate k '/'), full⟩ =
        String.mk ("/var/cache/apt/archives/".data ++ name)) ∧
    (∀ (uri : Url) (h0 : Host χ),
      statted (fetch (ρ := ρ) env uri h0).trace = [destination uri] ∧
      (∀ p ∈ downloads (fetch (ρ := ρ) env uri h0).trace, p = (uri.full, destination uri)) ∧
      (destination uri ∈ h0.files →
        (fetch (ρ := ρ) env uri h0).trace = [⟨Call.statDest (destination uri), true, none⟩])) ∧
    (∀ d ∈ h.files, d ∉ (downloads (worker (ρ := ρ) env ls h).trace).map Prod.snd) ∧
    ((downloads (worker (ρ := ρ) env ls h).trace).map Prod.snd).Nodup ∧
    (∀ a b ua ub, a.length ≠ 0 → b.length ≠ 0 →
      env.parseUrl a = some ua → env.parseUrl b = some ub →
      destination ua = destination ub →
      (downloads (worker (ρ := ρ) env [a, b] h).trace).length ≤ 1 ∧
      (destination ua ∉ h.files → (env.statDest (destination ua) h).1 = none →
        (env.createDest (destination ua)
          { h with ext := (env.statDest (destination ua) h).2 }).1 = none →
        downloads (worker (ρ := ρ) env [a, b] h).trace = [(ua.full, destination ua)] ∧
        (worker (ρ := ρ) env [a, b] h).trace.getLast? =
          some ⟨Call.statDest (destination ub), true, none⟩)) := by
  refine ⟨fun pre name k full hne hns hdot hdots hpre =>
      destination_segment pre name k full hne hns hdot hdots hpre,
    ?_, ?_, (worker_downloads env ls h).2.2, ?_⟩
  · intro uri h0
    obtain ⟨_, _, hst, hex, hdl, _⟩ := fetch_spec (ρ := ρ) env uri h0
    refine ⟨hst, ?_, hex⟩
    intro p hp
    rcases hdl with hnil | ⟨hone, _⟩
    · rw [hnil] at hp
      cases hp
    · rw [hone] at hp
      simpa using hp
  · intro d hd hmem
    exact ((worker_downloads env ls h).2.1 d hmem).1 hd
  · intro a b ua ub ha hb hpa hpb hdest
    have hw : (worker (ρ := ρ) env [a, b] h).trace =
        (fetch (ρ := ρ) env ua h).trace ++
          (fetch (ρ := ρ) env ub (fetch (ρ := ρ) env ua h).host).trace := by
      rw [worker_cons_parsed env a [b] ua ha hpa h,
        worker_cons_parsed env b [] ub hb hpb (fetch (ρ := ρ) env ua h).host]
      simp [worker, Prog.pure]
    obtain ⟨_, _, _, _, hdl, hfirst⟩ := fetch_spec (ρ := ρ) env ua h
    obtain ⟨_, _, _, hex2, hdl2, _⟩ :=
      fetch_spec (ρ := ρ) env ub (fetch (ρ := ρ) env ua h).host
    constructor
    · rw [hw, downloads_append]
      rcases hdl with hnil | ⟨hone, _, hin⟩
      · rw [hnil]
        rcases hdl2 with hnil2 | ⟨hone2, _⟩
        · simp [hnil2]
        · simp [hone2]
      · rw [hdest] at hin
        rw [hone, hex2 hin]
        simp [downloads]
    · intro hnot hstat hcreate
      obtain ⟨hdl1, hin⟩ := hfirst hnot hstat hcreate
      rw [hdest] at hin
      rw [hw, downloads_append, hdl1, hex2 hin]
      constructor
      · simp [downloads]
      · simp

/-- The statement of the amended C8 on two locators of the file `pkg.deb`, on
an empty cache: both have the destination
`/var/cache/apt/archives/pkg.deb`, and only the first is downloaded. -/
theorem worker_downloads_each_destination_once_witness :
    ("pkg.deb".data ≠ [] ∧ '/' ∉ "pkg.deb".data ∧ "pkg.deb".data ≠ ['.'] ∧
      "pkg.deb".data ≠ ['.', '.'] ∧ ("/a/".data = [] ∨ "/a/".data.getLast? = some '/')) ∧
    destination ⟨"/a/pkg.deb", "http://x/a/pkg.deb"⟩ = "/var/cache/apt/archives/pkg.deb" ∧
    ("http://x/a/pkg.deb".length ≠ 0 ∧ "http://x/b/pkg.deb".length ≠ 0 ∧
      quietEnv.parseUrl "http://x/a/pkg.deb" = some ⟨"/a/pkg.deb", "http://x/a/pkg.deb"⟩ ∧
      quietEnv.parseUrl "http://x/b/pkg.deb" = some ⟨"/b/pkg.deb", "http://x/b/pkg.deb"⟩ ∧
      destination ⟨"/a/pkg.deb", "http://x/a/pkg.deb"⟩ =
        destination ⟨"/b/pkg.deb", "http://x/b/pkg.deb"⟩ ∧
      destination ⟨"/a/pkg.deb", "http://x/a/pkg.deb"⟩ ∉ (hostAt 0 none).files ∧
      (quietEnv.statDest (destination ⟨"/a/pkg.deb", "http://x/a/pkg.deb"⟩)
        (hostAt 0 none)).1 = none ∧
      (quietEnv.createDest (destination ⟨"/a/pkg.deb", "http://x/a/pkg.deb"⟩)
        { hostAt 0 none with
          ext := (quietEnv.statDest (destination ⟨"/a/pkg.deb", "http://x/a/pkg.deb"⟩)
            (hostAt 0 none)).2 }).1 = none) ∧
    downloads (worker (ρ := String) quietEnv ["http://x/a/pkg.deb", "http://x/b/pkg.deb"]
        (hostAt 0 none)).trace =
      [("http://x/a/pkg.deb", destination ⟨"/a/pkg.deb", "http://x/a/pkg.deb"⟩)] :=
  ⟨⟨by decide, by decide, by decide, by decide, by decide⟩,
    (worker_downloads_each_destination_once (ρ := String) quietEnv [] (hostAt 0 none)).1
      "/a/".data "pkg.deb".data 0 "http://x/a/pkg.deb" (by decide) (by decide) (by decide)
      (by decide) (by decide),
    ⟨by decide, by decide, by decide, by decide, by decide, by decide, rfl, rfl⟩,
    (((worker_downloads_each_destination_once (ρ := String) quietEnv [] (hostAt 0 none)).2.2.2.2
      "http://x/a/pkg.deb" "http://x/b/pkg.deb" ⟨"/a/pkg.deb", "http://x/a/pkg.deb"⟩
      ⟨"/b/pkg.deb", "http://x/b/pkg.deb"⟩ (by decide) (by decide) (by decide) (by decide)
      (by decide)).2 (by decide) rfl rfl).1⟩

/-- C9, as stated, fails: on an empty cache, when the network request for
`http://x/pkg.deb` fails, the destination exists after the worker has handled
the locator, and a worker that handles the locator again on the host that was
left only checks the destination. -/
theorem failed_request_leaves_destination :
    (hostAt 0 none).files = [] ∧
    (worker (ρ := String) networkDown ["http://x/pkg.deb"] (hostAt 0 none)).trace =
      [⟨Call.statDest "/var/cache/apt/archives/pkg.deb", false, none⟩,
        ⟨Call.createDest "/var/cache/apt/archives/pkg.deb", false, none⟩,
        ⟨Call.httpGet "http://x/pkg.deb" "/var/cache/apt/archives/pkg.deb", false,
          some "connection refused"⟩] ∧
    "/var/cache/apt/archives/pkg.deb" ∈
      (worker (ρ := String) networkDown ["http://x/pkg.deb"] (hostAt 0 none)).host.files ∧
    (worker (ρ := String) networkDown ["http://x/pkg.deb"]
      (worker (ρ := String) networkDown ["http://x/pkg.deb"] (hostAt 0 none)).host).trace =
      [⟨Call.statDest "/var/cache/apt/archives/pkg.deb", true, none⟩] := by
  decide

/-- C9, amended: when the network request of a fetch fails, the destination,
created before the request, exists after the fetch, and a later fetch of the
same locator on the host that was left stops after the check of the
destination, whatever the environment then is: no download is attempted again. -/
theorem failed_request_keeps_destination (env : Env ρ χ ε) (uri : Url) (h : Host χ) (e : ε)
    (hfail : (⟨Call.httpGet uri.full (destination uri), false, some e⟩ : Event ρ ε) ∈
      (fetch (ρ := ρ) env uri h).trace) :
    destination uri ∈ (fetch (ρ := ρ) env uri h).host.files ∧
    ∀ env2 : Env ρ χ ε,
      (fetch (ρ := ρ) env2 uri (fetch (ρ := ρ) env uri h).host).trace =
        [⟨Call.statDest (destination uri), true, none⟩] := by
  obtain ⟨_, _, _, _, hdl, _⟩ := fetch_spec (ρ := ρ) env uri h
  have hmem := mem_downloads_of_mem hfail
  rcases hdl with hnil | ⟨_, _, hin⟩
  · rw [hnil] at hmem
    cases hmem
  · exact ⟨hin, fun env2 => (fetch_spec (ρ := ρ) env2 uri _).2.2.2.1 hin⟩

/-- The statement of the amended C9 on the locator `http://x/pkg.deb` with the
network down. -/
theorem failed_request_keeps_destination_witness :
    (⟨Call.httpGet "http://x/pkg.deb" (destination ⟨"/pkg.deb", "http://x/pkg.deb"⟩), false,
        some "connection refused"⟩ : Event String String) ∈
      (fetch (ρ := String) networkDown ⟨"/pkg.deb", "http://x/pkg.deb"⟩ (hostAt 0 none)).trace ∧
    destination ⟨"/pkg.deb", "http://x/pkg.deb"⟩ ∈
      (fetch (ρ := String) networkDown ⟨"/pkg.deb", "http://x/pkg.deb"⟩
        (hostAt 0 none)).host.files :=
  ⟨by decide,
    (failed_request_keeps_destination (ρ := String) networkDown ⟨"/pkg.deb", "http://x/pkg.deb"⟩
      (hostAt 0 none) "connection refused" (by decide)).1⟩

/-! ## The part before the forced refresh -/

theorem bind_cases {α β : Type} (m : Prog ρ χ ε α) (f : α → Prog ρ χ ε β) (h : Host χ) :
    (∃ x, (m h).res = .error x ∧ Prog.bind m f h = ⟨.error x, (m h).host, (m h).trace⟩) ∨
    (∃ a, (m h).res = .ok a ∧
      Prog.bind m f h = ⟨(f a (m h).host).res, (f a (m h).host).host,
        (m h).trace ++ (f a (m h).host).trace⟩) := by
  cases hr : (m h).res with
  | error x => exact Or.inl ⟨x, rfl, bind_error m f h x hr⟩
  | ok a => exact Or.inr ⟨a, rfl, bind_ok m f h a hr⟩

theorem created_phase (ev : Event ρ ε) (h : ev.created = true) :
    ev.call.phase = 2 ∨ ev.call.phase = 4 := by
  obtain ⟨call, flag, err⟩ := ev
  cases call <;> simp_all [Event.created, Call.phase]

theorem any_created_of_phase (t : List (Event ρ ε))
    (ht : ∀ ev ∈ t, ev.call.phase ≠ 2 ∧ ev.call.phase ≠ 4) : t.any Event.created = false := by
  rw [List.any_eq_false]
  intro ev hev hc
  rcases created_phase ev hc with h2 | h4
  · exact (ht ev hev).1 h2
  · exact (ht ev hev).2 h4

theorem any_created_of_ordered {α : Type} {i l : Nat} {p : Prog ρ χ ε α} (hp : Ordered i l p)
    (h : Host χ) (hi : (2 < i ∧ 4 < i) ∨ (l < 2) ∨ (2 < i ∧ l < 4)) :
    (p h).trace.any Event.created = false := by
  apply any_created_of_phase
  intro ev hev
  have := (hp h).2 ev hev
  omega

theorem apply_ok (c : Call ρ) (op : Host χ → Option ε × Host χ) (h : Host χ)
    (hok : (apply c op h).res = .ok ()) : (apply c op h).trace = [⟨c, false, none⟩] := by
  unfold apply exec at hok ⊢
  cases he : (op h).1 with
  | none => simp [Prog.bind, callOp, Prog.pure, he]
  | some e => simp [Prog.bind, callOp, stop, he] at hok

theorem forEach_apply_ok (tag : ρ → Call ρ) (op : ρ → Host χ → Option ε × Host χ) :
    ∀ (xs : List ρ) (h : Host χ),
      (forEach (fun x => apply (tag x) (op x)) xs h).res = .ok () →
      (forEach (fun x => apply (tag x) (op x)) xs h).trace.map Event.call = xs.map tag := by
  intro xs
  induction xs with
  | nil =>
    intro h _
    simp [forEach, Prog.pure]
  | cons x rest ih =>
    intro h hok
    rw [forEach] at hok ⊢
    obtain ⟨_, h1, h2, h3⟩ := bind_ok_inv hok
    rw [h3, List.map_append, ih _ h2, apply_ok _ _ _ h1]
    rfl

theorem installAll_ok (tag : ρ → Call ρ) (op : ρ → Host χ → (Bool × Option ε) × Host χ)
    (htag : ∀ x flag (err : Option ε), (⟨tag x, flag, err⟩ : Event ρ ε).created = flag) :
    ∀ (xs : List ρ) (needed : Bool) (h : Host χ) (b : Bool),
      (installAll tag op xs needed h).res = .ok b →
      (installAll tag op xs needed h).trace.map Event.call = xs.map tag ∧
      b = (needed || (installAll tag op xs needed h).trace.any Event.created) := by
  intro xs
  induction xs with
  | nil =>
    intro needed h b hok
    simp only [installAll, Prog.pure, Except.ok.injEq] at hok
    simp [installAll, Prog.pure, hok]
  | cons x rest ih =>
    intro needed h b hok
    rw [installAll] at hok ⊢
    obtain ⟨r, h1, h2, h3⟩ := bind_ok_inv hok
    have hr : r = (op x h).1 := by
      simp only [execB, callOp, Except.ok.injEq] at h1
      exact h1.symm
    have ht : (execB (tag x) (op x) h).trace = [⟨tag x, (op x h).1.1, (op x h).1.2⟩] := rfl
    cases he : r.2 with
    | some e => simp [he, stop] at h2
    | none =>
      simp only [he] at h2
      obtain ⟨ih1, ih2⟩ := ih _ _ _ h2
      rw [h3]
      simp only [he, List.map_append, ih1, ht, List.any_append, ih2]
      constructor
      · rfl
      · simp only [List.any_cons, List.any_nil, htag, Bool.or_false]
        rw [hr]
        cases needed <;> cases (op x h).1.1 <;> simp

theorem convergeSources_ok (env : Env ρ χ ε) (m : Manifest ρ) (h : Host χ) (needed : Bool)
    (hok : (convergeSources env m h).res = .ok needed) :
    needed = (convergeSources env m h).trace.any Event.created ∧
    ∃ tb, (convergeSources env m h).trace.map Event.call =
        m.Users.map Call.userCreate ++ tb ++ m.SourceLists.map Call.slistInstall ++
          (if m.PackageArchives.length > 0 then [Call.checkInstall] else []) ++
          m.PackageArchives.map Call.ppaInstall ∧
      ∀ c ∈ tb, c.phase = 1 := by
  unfold convergeSources at hok ⊢
  simp only [bind_def, pure_def] at hok ⊢
  obtain ⟨_, hu, h2, t2⟩ := bind_ok_inv hok
  obtain ⟨_, hb, h3, t3⟩ := bind_ok_inv h2
  obtain ⟨n1, hs, h4, t4⟩ := bind_ok_inv h3
  obtain ⟨_, hc, h5, t5⟩ := bind_ok_inv h4
  rw [t2, t3, t4, t5]
  obtain ⟨s1, s2⟩ := installAll_ok Call.slistInstall env.slistInstall (fun _ _ _ => rfl) _ _ _ _ hs
  obtain ⟨p1, p2⟩ := installAll_ok Call.ppaInstall env.ppaInstall (fun _ _ _ => rfl) _ _ _ _ h5
  have hua := any_created_of_ordered
    (ordered_forEach_apply 0 Call.userCreate env.userCreate (fun _ => rfl) m.Users) h
    (Or.inr (Or.inl (by decide)))
  have hba := any_created_of_ordered (ordered_begin (ρ := ρ) env)
    (forEach (fun user => apply (Call.userCreate user) (env.userCreate user)) m.Users h).host
    (Or.inr (Or.inl (by decide)))
  constructor
  · simp only [List.any_append, hua, hba, Bool.false_or]
    rw [p2, s2]
    simp only [Bool.false_or]
    congr 1
    split
    · have hck : Ordered 3 3 (apply (ρ := ρ) Call.checkInstall env.checkInstall) :=
        ordered_apply Call.checkInstall env.checkInstall
      rw [any_created_of_ordered hck _ (Or.inr (Or.inr (by decide)))]
      simp
    · simp [Prog.pure]
  · refine ⟨(Begin env (forEach (fun user => apply (Call.userCreate user) (env.userCreate user))
      m.Users h).host).trace.map Event.call, ?_, fun c hc => ?_⟩
    · simp only [List.map_append, forEach_apply_ok _ _ _ _ hu, s1, p1, List.append_assoc]
      congr 3
      by_cases hlen : m.PackageArchives.length > 0
      · simp only [hlen, if_true] at hc ⊢
        rw [apply_ok _ _ _ hc]
        rfl
      · simp only [hlen, if_false]
        rfl
    · obtain ⟨ev, hev, rfl⟩ := List.mem_map.1 hc
      have := ((ordered_begin (ρ := ρ) env) _).2 ev hev
      omega

/-! ## The part after the packages, and the order of the calls -/

theorem convergeResources_ok (env : Env ρ χ ε) (m : Manifest ρ) (h : Host χ)
    (hok : (convergeResources env m h).res = .ok ()) :
    (convergeResources env m h).trace.map Event.call =
      m.Tarballs.map Call.unpack ++ m.Directories.map Call.dirCreate ++
        m.Templates.map Call.tmplCreate ++ m.Symlinks.map Call.symlinkCreate ++
        m.Databases.map Call.dbCreate ++ m.DatabaseUsers.map Call.dbuCreate ++
        m.RubyBundles.map Call.bundleInstall ++ m.Services.map Call.svcCreate := by
  unfold convergeResources at hok ⊢
  simp only [bind_def, pure_def] at hok ⊢
  obtain ⟨_, h1, k1, t1⟩ := bind_ok_inv hok
  obtain ⟨_, h2, k2, t2⟩ := bind_ok_inv k1
  obtain ⟨_, h3, k3, t3⟩ := bind_ok_inv k2
  obtain ⟨_, h4, k4, t4⟩ := bind_ok_inv k3
  obtain ⟨_, h5, k5, t5⟩ := bind_ok_inv k4
  obtain ⟨_, h6, k6, t6⟩ := bind_ok_inv k5
  obtain ⟨_, h7, k7, t7⟩ := bind_ok_inv k6
  rw [t1, t2, t3, t4, t5, t6, t7]
  simp only [List.map_append, forEach_apply_ok _ _ _ _ h1, forEach_apply_ok _ _ _ _ h2,
    forEach_apply_ok _ _ _ _ h3, forEach_apply_ok _ _ _ _ h4, forEach_apply_ok _ _ _ _ h5,
    forEach_apply_ok _ _ _ _ h6, forEach_apply_ok _ _ _ _ h7, forEach_apply_ok _ _ _ _ k7,
    List.append_assoc]

theorem stops_not_quiet (ev : Event ρ ε) (x : Exit ε) (h : ev.stops = some x) :
    ¬ (ev.err = none ∨ ev.call.isFetch = true) := by
  obtain ⟨call, flag, err⟩ := ev
  cases err with
  | none => simp [Event.stops] at h
  | some e => cases call <;> simp_all [Event.stops, Call.onFailure, Call.returnsError, Call.isFetch]

theorem failStop_ok_of_quiet {α : Type} {r : Run ρ χ ε α} (hr : r.FailStop κ)
    (hq : Quiet r.trace) (hc : r.crashed = false) : ∃ a, r.res = .ok a := by
  cases hres : r.res with
  | ok a => exact ⟨a, rfl⟩
  | error x =>
    simp only [Run.FailStop, hres] at hr
    rcases hr with ⟨pre, ev, post, ht, _, hs, _⟩ | ⟨_, hx, _⟩
    · exact absurd (hq ev (by rw [ht]; simp)) (stops_not_quiet ev x hs)
    · rcases hx with rfl | rfl <;> simp [Run.crashed, hres] at hc

theorem converge_ok_trace (env : Env ρ χ ε) (m : Manifest ρ) (h : Host χ)
    (hok : (Converge env m h).res = .ok ()) :
    ∃ begin pkgs, (Converge env m h).trace.map Event.call =
        m.Users.map Call.userCreate ++ begin ++ m.SourceLists.map Call.slistInstall ++
          (if m.PackageArchives.length > 0 then [Call.checkInstall] else []) ++
          m.PackageArchives.map Call.ppaInstall ++ pkgs ++
          m.Tarballs.map Call.unpack ++ m.Directories.map Call.dirCreate ++
          m.Templates.map Call.tmplCreate ++ m.Symlinks.map Call.symlinkCreate ++
          m.Databases.map Call.dbCreate ++ m.DatabaseUsers.map Call.dbuCreate ++
          m.RubyBundles.map Call.bundleInstall ++ m.Services.map Call.svcCreate ∧
      (∀ c ∈ begin, c.phase = 1) ∧ (∀ c ∈ pkgs, 5 ≤ c.phase ∧ c.phase ≤ 11) := by
  rw [converge_eq] at hok ⊢
  obtain ⟨needed, h1, k1, t1⟩ := bind_ok_inv hok
  obtain ⟨_, h2, k2, t2⟩ := bind_ok_inv k1
  obtain ⟨_, h3, k3, t3⟩ := bind_ok_inv k2
  obtain ⟨_, tb, hs, hb⟩ := convergeSources_ok env m h needed h1
  have hr := convergeResources_ok env m _ k3
  refine ⟨tb, ((forceRefresh env needed (convergeSources env m h).host).trace ++
    (convergePackages env m
      (forceRefresh env needed (convergeSources env m h).host).host).trace).map Event.call,
    ?_, hb, ?_⟩
  · rw [t1, t2, t3]
    simp only [List.map_append, hs, hr, List.append_assoc]
  · intro c hc
    obtain ⟨ev, hev, rfl⟩ := List.mem_map.1 hc
    rcases List.mem_append.1 hev with h5 | h6
    · have := (ordered_forceRefresh env needed _).2 ev h5
      omega
    · have := (ordered_convergePackages env m _).2 ev h6
      omega

/-- The order of the calls in the runs that the fetch pool does not crash: the
calls of `Converge` are always made in the order of the phases, no call of a
later kind before a call of an earlier kind; in a run in which no call fails,
fetches apart, and which ends neither in a panic nor in a deadlock, the calls
are exactly: every user, the calls of `Begin`, every source list, the check of
the archive tool when there are package archives, every package archive, the
calls about the packages, then every tarball, directory, template, symlink,
database, database user, bundle and service, each kind in manifest order, so
that every directory is created before any template is written. -/
theorem converge_applies_in_kind_order (env : Env ρ χ ε) (m : Manifest ρ) (h : Host χ)
    (hok : ∀ ev ∈ (Converge env m h).trace, ev.call.isFetch = false → ev.err = none)
    (hrun : (Converge env m h).crashed = false) :
    (Converge env m h).trace.Pairwise (fun a b => a.call.phase ≤ b.call.phase) ∧
    (∃ begin pkgs, (Converge env m h).trace.map Event.call =
        m.Users.map Call.userCreate ++ begin ++ m.SourceLists.map Call.slistInstall ++
          (if m.PackageArchives.length > 0 then [Call.checkInstall] else []) ++
          m.PackageArchives.map Call.ppaInstall ++ pkgs ++
          m.Tarballs.map Call.unpack ++ m.Directories.map Call.dirCreate ++
          m.Templates.map Call.tmplCreate ++ m.Symlinks.map Call.symlinkCreate ++
          m.Databases.map Call.dbCreate ++ m.DatabaseUsers.map Call.dbuCreate ++
          m.RubyBundles.map Call.bundleInstall ++ m.Services.map Call.svcCreate ∧
      (∀ c ∈ begin, c.phase = 1) ∧ (∀ c ∈ pkgs, 5 ≤ c.phase ∧ c.phase ≤ 11)) ∧
    (∀ pre ev post tmpl, (Converge env m h).trace = pre ++ ev :: post →
      ev.call = Call.tmplCreate tmpl →
      (∀ dir ∈ m.Directories, Call.dirCreate dir ∈ pre.map Event.call) ∧
      (∀ y ∈ post, ∀ dir, y.call ≠ Call.dirCreate dir)) := by
  have hq : Quiet (Converge env m h).trace := by
    intro ev hev
    cases hf : ev.call.isFetch with
    | true => exact Or.inr rfl
    | false => exact Or.inl (hok ev hev hf)
  obtain ⟨_, hres⟩ := failStop_ok_of_quiet (failStop_converge env m h) hq hrun
  have hord := (ordered_converge env m h).1
  have hshape := converge_ok_trace env m h hres
  refine ⟨hord, hshape, ?_⟩
  intro pre ev post tmpl ht hev
  rw [ht, List.pairwise_append] at hord
  obtain ⟨_, hpost, hcross⟩ := hord
  rw [List.pairwise_cons] at hpost
  constructor
  · intro dir hdir
    obtain ⟨begin, pkgs, hcalls, _, _⟩ := hshape
    have hin : Call.dirCreate dir ∈ (Converge env m h).trace.map Event.call := by
      rw [hcalls]
      simp only [List.mem_append, List.mem_map]
      left; left; left; left; left; left; right
      exact ⟨dir, hdir, rfl⟩
    rw [ht, List.map_append, List.mem_append] at hin
    rcases hin with hin | hin
    · exact hin
    · exfalso
      obtain ⟨y, hy, hyc⟩ := List.mem_map.1 hin
      rcases List.mem_cons.1 hy with rfl | hy
      · rw [hev] at hyc
        cases hyc
      · have := hpost.1 y hy
        rw [hev, hyc] at this
        simp [Call.phase] at this
  · intro y hy dir hyc
    have := hpost.1 y hy
    rw [hev, hyc] at this
    simp [Call.phase] at this

/-- The order of the calls on a manifest with one resource of every kind, on a
host where the package is not installed yet. -/
theorem converge_applies_in_kind_order_witness :
    (∀ ev ∈ (Converge freshEnv (manifestOf "a") (hostAt 0 none)).trace,
      ev.call.isFetch = false → ev.err = none) ∧
    (Converge freshEnv (manifestOf "a") (hostAt 0 none)).crashed = false ∧
    (∀ pre ev post tmpl,
      (Converge freshEnv (manifestOf "a") (hostAt 0 none)).trace = pre ++ ev :: post →
      ev.call = Call.tmplCreate tmpl →
      (∀ dir ∈ (manifestOf "a").Directories, Call.dirCreate dir ∈ pre.map Event.call) ∧
      (∀ y ∈ post, ∀ dir, y.call ≠ Call.dirCreate dir)) :=
  ⟨by decide, rfl,
    (converge_applies_in_kind_order freshEnv (manifestOf "a") (hostAt 0 none)
      (by decide) rfl).2.2⟩

/-- C1, on a failing input: `Converge` on a manifest with one resource of
every kind, on a host where the package is not installed and `ArchiveUrls`
sends the locator `%zz`, which `url.Parse` rejects. Every call that is made
succeeds, and the worker that receives the locator panics on the nil URL: the
run ends once the workers are started, without the install of the package and
without the tarball, the directory, the template, the symlink, the database,
the database user, the bundle and the service. When `ArchiveUrls` sends
twenty-one empty strings instead, the twenty workers return one after another
and the last send blocks for ever, at the same place. With the locator
`http://x/pool/a-pkg.deb` the same run returns `nil` after all the calls, in
the order of the claim. -/
theorem malformed_locator_stops_converge :
    (∀ ev ∈ (Converge malformedLocator (manifestOf "a") (hostAt 0 none)).trace,
      ev.err = none) ∧
    (Converge malformedLocator (manifestOf "a") (hostAt 0 none)).res =
      Except.error Exit.panic ∧
    (Converge malformedLocator (manifestOf "a") (hostAt 0 none)).trace.map Event.call =
      [Call.userCreate "a-user", Call.mkdirAll, Call.statMarker, Call.createMarker,
        Call.aptUpdate, Call.slistInstall "a-list", Call.checkInstall, Call.ppaInstall "a-ppa",
        Call.forceUpdate, Call.installed "a-pkg", Call.spawnWorkers] ∧
    (∀ ev ∈ (Converge blankLocators (manifestOf "a") (hostAt 0 none)).trace, ev.err = none) ∧
    (Converge blankLocators (manifestOf "a") (hostAt 0 none)).res =
      Except.error Exit.deadlock ∧
    (Converge blankLocators (manifestOf "a") (hostAt 0 none)).trace.map Event.call =
      [Call.userCreate "a-user", Call.mkdirAll, Call.statMarker, Call.createMarker,
        Call.aptUpdate, Call.slistInstall "a-list", Call.checkInstall, Call.ppaInstall "a-ppa",
        Call.forceUpdate, Call.installed "a-pkg", Call.spawnWorkers] ∧
    (Converge freshEnv (manifestOf "a") (hostAt 0 none)).res = Except.ok () ∧
    (Converge freshEnv (manifestOf "a") (hostAt 0 none)).trace.map Event.call =
      [Call.userCreate "a-user", Call.mkdirAll, Call.statMarker, Call.createMarker,
        Call.aptUpdate, Call.slistInstall "a-list", Call.checkInstall, Call.ppaInstall "a-ppa",
        Call.forceUpdate, Call.installed "a-pkg", Call.spawnWorkers,
        Call.statDest "/var/cache/apt/archives/a-pkg.deb",
        Call.createDest "/var/cache/apt/archives/a-pkg.deb",
        Call.httpGet "http://x/pool/a-pkg.deb" "/var/cache/apt/archives/a-pkg.deb",
        Call.copy "/var/cache/apt/archives/a-pkg.deb", Call.archiveUrls "a-pkg",
        Call.closeChannel, Call.waitWorkers, Call.pkgInstall "a-pkg", Call.unpack "a-tar",
        Call.dirCreate "a-dir", Call.tmplCreate "a-tmpl", Call.symlinkCreate "a-link",
        Call.dbCreate "a-db", Call.dbuCreate "a-dbu", Call.bundleInstall "a-gem",
        Call.svcCreate "a-svc"] :=
  ⟨by decide, rfl, by decide, by decide, rfl, by decide, rfl, by decide⟩

/-! ## The part about the packages -/

theorem checksOf_append (s t : List (Event ρ ε)) :
    checksOf (s ++ t) = checksOf s ++ checksOf t := by
  simp [checksOf, List.filterMap_append]

theorem toInstallOf_append (s t : List (Event ρ ε)) :
    toInstallOf (s ++ t) = toInstallOf s ++ toInstallOf t := by
  simp [toInstallOf, checksOf_append, List.filter_append]

theorem archivedOf_append (s t : List (Event ρ ε)) :
    archivedOf (s ++ t) = archivedOf s ++ archivedOf t := by
  simp [archivedOf, List.filterMap_append]

theorem installsOf_append (s t : List (Event ρ ε)) :
    installsOf (s ++ t) = installsOf s ++ installsOf t := by
  simp [installsOf, List.filterMap_append]

theorem checksOf_of_phase (t : List (Event ρ ε)) (ht : ∀ ev ∈ t, ev.call.phase ≠ 6) :
    checksOf t = [] := by
  unfold checksOf
  rw [List.filterMap_eq_nil_iff]
  intro ev hev
  have := ht ev hev
  cases hc : ev.call <;> simp_all [Call.phase]

theorem toInstallOf_of_phase (t : List (Event ρ ε)) (ht : ∀ ev ∈ t, ev.call.phase ≠ 6) :
    toInstallOf t = [] := by
  simp [toInstallOf, checksOf_of_phase t ht]

theorem installsOf_of_phase (t : List (Event ρ ε)) (ht : ∀ ev ∈ t, ev.call.phase ≠ 11) :
    installsOf t = [] := by
  unfold installsOf
  rw [List.filterMap_eq_nil_iff]
  intro ev hev
  have := ht ev hev
  cases hc : ev.call <;> simp_all [Call.phase]

theorem archivedOf_of_phase (t : List (Event ρ ε)) (ht : ∀ ev ∈ t, ev.call.phase ≠ 8) :
    archivedOf t = [] := by
  unfold archivedOf
  rw [List.filterMap_eq_nil_iff]
  intro ev hev
  have := ht ev hev
  cases hc : ev.call <;> simp_all [Call.phase]

theorem archivedOf_of_fetch (t : List (Event ρ ε)) (ht : ∀ ev ∈ t, ev.call.isFetch = true) :
    archivedOf t = [] := by
  unfold archivedOf
  rw [List.filterMap_eq_nil_iff]
  intro ev hev
  have := ht ev hev
  cases hc : ev.call <;> simp_all [Call.isFetch]

/-- Every event of every run of the program satisfies `P`. -/
theorem traceAll_bind {α β : Type} {P : Event ρ ε → Prop} {m : Prog ρ χ ε α}
    {f : α → Prog ρ χ ε β} (hm : ∀ h, ∀ ev ∈ (m h).trace, P ev)
    (hf : ∀ a h, ∀ ev ∈ (f a h).trace, P ev) :
    ∀ h, ∀ ev ∈ (Prog.bind m f h).trace, P ev := by
  intro h ev hev
  rcases bind_cases m f h with ⟨x, _, heq⟩ | ⟨a, _, heq⟩
  · rw [heq] at hev
    exact hm h ev hev
  · rw [heq] at hev
    rcases List.mem_append.1 hev with h1 | h2
    · exact hm h ev h1
    · exact hf a _ ev h2

theorem fetch_isFetch (env : Env ρ χ ε) (uri : Url) :
    ∀ h, ∀ ev ∈ (fetch (ρ := ρ) env uri h).trace, ev.call.isFetch = true := by
  unfold fetch statDest exec
  simp only [bind_def, pure_def]
  apply traceAll_bind
  · intro h ev hev
    simp only [callOp, List.mem_singleton] at hev
    subst hev
    rfl
  · intro missing
    split
    · intro h ev hev
      cases hev
    · apply traceAll_bind
      · intro h ev hev
        simp only [callOp, List.mem_singleton] at hev
        subst hev
        rfl
      · intro err
        cases err with
        | some e =>
          intro h ev hev
          cases hev
        | none =>
          apply traceAll_bind
          · intro h ev hev
            simp only [callOp, List.mem_singleton] at hev
            subst hev
            rfl
          · intro err
            cases err with
            | some e =>
              intro h ev hev
              cases hev
            | none =>
              apply traceAll_bind
              · intro h ev hev
                simp only [callOp, List.mem_singleton] at hev
                subst hev
                rfl
              · intro _ h ev hev
                cases hev

theorem receive_isFetch (env : Env ρ χ ε) (rawUrl : String) :
    ∀ h, ∀ ev ∈ (receive (ρ := ρ) env rawUrl h).trace, ev.call.isFetch = true := by
  unfold receive
  simp only [bind_def, pure_def]
  split
  · intro h ev hev
    cases hev
  · cases env.parseUrl rawUrl with
    | none =>
      intro h ev hev
      cases hev
    | some uri =>
      apply traceAll_bind (fetch_isFetch env uri)
      intro _ h ev hev
      cases hev

theorem send_isFetch (env : Env ρ χ ε) (alive : Nat) (rawUrl : String) :
    ∀ h, ∀ ev ∈ (send (ρ := ρ) env alive rawUrl h).trace, ev.call.isFetch = true := by
  unfold send
  split
  · intro h ev hev
    cases hev
  · apply traceAll_bind (receive_isFetch env rawUrl)
    intro _ h ev hev
    cases hev

theorem sendAll_isFetch (env : Env ρ χ ε) :
    ∀ ls alive h, ∀ ev ∈ (sendAll (ρ := ρ) env ls alive h).trace, ev.call.isFetch = true := by
  intro ls
  induction ls with
  | nil =>
    intro alive h ev hev
    cases hev
  | cons x rest ih =>
    intro alive
    unfold sendAll
    exact traceAll_bind (send_isFetch env alive x) (fun a => ih a)

theorem failStop_crash_of_fetch {α : Type} {r : Run ρ χ ε α} (hr : r.FailStop κ)
    (hf : ∀ ev ∈ r.trace, ev.call.isFetch = true) (x : Exit ε) (hx : r.res = .error x) :
    x = Exit.panic ∨ x = Exit.deadlock := by
  simp only [Run.FailStop, hx] at hr
  rcases hr with ⟨pre, ev, post, ht, _, hs, _⟩ | ⟨_, h, _⟩
  · exact absurd (Or.inr (hf ev (by rw [ht]; simp))) (stops_not_quiet ev x hs)
  · exact h

theorem collect_spec (env : Env ρ χ ε) :
    ∀ (xs acc : List ρ) (h : Host χ),
      (collect env xs acc h).res = .ok (acc ++ toInstallOf (collect env xs acc h).trace) ∧
      (checksOf (collect env xs acc h).trace).map Prod.fst = xs := by
  intro xs
  induction xs with
  | nil =>
    intro acc h
    simp [collect, Prog.pure, toInstallOf, checksOf]
  | cons x rest ih =>
    intro acc h
    rw [collect]
    rw [bind_ok (ask (Call.installed x) (env.installed x)) _ h (env.installed x h).1 rfl]
    have ht : (ask (ρ := ρ) (ε := ε) (Call.installed x) (env.installed x) h).trace =
        [⟨Call.installed x, (env.installed x h).1, none⟩] := rfl
    simp only [ht, toInstallOf_append, checksOf_append, List.map_append]
    obtain ⟨ih1, ih2⟩ := ih (if (!(env.installed x h).1) = true then acc ++ [x] else acc)
      (ask (ρ := ρ) (ε := ε) (Call.installed x) (env.installed x) h).host
    rw [ih1, ih2]
    cases (env.installed x h).1 <;> simp [toInstallOf, checksOf]

theorem archiveUrls_cases (env : Env ρ χ ε) (pack : ρ) (alive : Nat) (h : Host χ) :
    (∃ x, (archiveUrls env pack alive h).res = .error x ∧
      (x = Exit.panic ∨ x = Exit.deadlock) ∧
      ∀ ev ∈ (archiveUrls env pack alive h).trace, ev.call.isFetch = true) ∨
    (∃ alive1 err ts, (archiveUrls env pack alive h).res = .ok (alive1, err) ∧
      (archiveUrls env pack alive h).trace = ts ++ [⟨Call.archiveUrls pack, false, err⟩] ∧
      ∀ ev ∈ ts, ev.call.isFetch = true) := by
  unfold archiveUrls record perform
  simp only [bind_def, pure_def]
  have hs := sendAll_isFetch (ρ := ρ) env (env.archiveUrls pack h).1.1 alive
    (env.archiveUrls pack h).2
  have hfs := failStop_sendAll env (env.archiveUrls pack h).1.1 alive (env.archiveUrls pack h).2
  cases hr : (sendAll (ρ := ρ) env (env.archiveUrls pack h).1.1 alive
      (env.archiveUrls pack h).2).res with
  | error x =>
    left
    refine ⟨x, ?_, failStop_crash_of_fetch hfs hs x hr, ?_⟩
    · simp [Prog.bind, hr]
    · simpa [Prog.bind, hr] using hs
  | ok alive1 =>
    right
    refine ⟨alive1, (env.archiveUrls pack h).1.2, _, ?_, ?_, hs⟩
    · simp [Prog.bind, hr, callOp, Prog.pure]
    · simp [Prog.bind, hr, callOp, Prog.pure]

theorem produce_spec (env : Env ρ χ ε) :
    ∀ (ps : List ρ) (alive : Nat) (h : Host χ),
      (∃ rest, archivedOf (produce env ps alive h).trace ++ rest = ps) ∧
      ((produce env ps alive h).res = .ok () →
        archivedOf (produce env ps alive h).trace = ps) ∧
      (∀ x, (produce env ps alive h).res = .error x → ∀ e, x ≠ Exit.err e) := by
  intro ps
  induction ps with
  | nil =>
    intro alive h
    simp [produce, Prog.pure, archivedOf]
  | cons p rest ih =>
    intro alive h
    rw [produce]
    rcases archiveUrls_cases env p alive h with ⟨x, hx, hcrash, hf⟩ | ⟨alive1, err, ts, hok, ht, hf⟩
    · rw [bind_error _ _ h x hx]
      refine ⟨⟨p :: rest, (by simp [archivedOf_of_fetch _ hf])⟩, fun h0 => (by cases h0), ?_⟩
      intro y hy e he
      simp only [Except.error.injEq] at hy
      subst hy
      rcases hcrash with h1 | h1 <;> rw [h1] at he <;> cases he
    · rw [bind_ok _ _ h _ hok]
      simp only [ht, archivedOf_append, archivedOf_of_fetch _ hf, List.nil_append]
      have hone : archivedOf ([⟨Call.archiveUrls p, false, err⟩] : List (Event ρ ε)) = [p] := rfl
      rw [hone]
      cases err with
      | some e =>
        refine ⟨⟨rest, (by simp [stop, archivedOf])⟩, fun h0 => (by simp [stop] at h0), ?_⟩
        intro y hy e2 he
        simp only [stop, Except.error.injEq] at hy
        subst hy
        cases he
      | none =>
        obtain ⟨⟨r, ih1⟩, ih2, ih3⟩ := ih alive1 (archiveUrls env p alive h).host
        refine ⟨⟨r, (by simp [ih1])⟩, fun h0 => (by simp [ih2 h0]), ih3⟩

theorem installs_spec (env : Env ρ χ ε) :
    ∀ (ps : List ρ) (h : Host χ),
      (∃ rest, installsOf (forEach (installPackage env) ps h).trace ++ rest = ps) ∧
      ((forEach (installPackage env) ps h).res = .ok () →
        installsOf (forEach (installPackage env) ps h).trace = ps) ∧
      (∀ x, (forEach (installPackage env) ps h).res = .error x → ∀ e, x ≠ Exit.err e) := by
  intro ps
  induction ps with
  | nil =>
    intro h
    simp [forEach, Prog.pure, installsOf]
  | cons p rest ih =>
    intro h
    rw [forEach]
    cases he : (env.pkgInstall p h).1 with
    | some e =>
      have hr : (installPackage env p h).res = .error (Exit.fatal e) := by
        simp [installPackage, exec, Prog.bind, callOp, stop, he]
      have ht : (installPackage env p h).trace = [⟨Call.pkgInstall p, false, some e⟩] := by
        simp [installPackage, exec, Prog.bind, callOp, stop, he]
      rw [bind_error _ _ h _ hr]
      refine ⟨⟨rest, (by simp [ht, installsOf])⟩, fun h0 => (by cases h0), ?_⟩
      intro y hy e2 he2
      simp only [Except.error.injEq] at hy
      subst hy
      cases he2
    | none =>
      have hr : (installPackage env p h).res = .ok () := by
        simp [installPackage, exec, Prog.bind, callOp, Prog.pure, he]
      have ht : (installPackage env p h).trace = [⟨Call.pkgInstall p, false, none⟩] := by
        simp [installPackage, exec, Prog.bind, callOp, Prog.pure, he]
      rw [bind_ok _ _ h _ hr]
      obtain ⟨⟨r, ih1⟩, ih2, ih3⟩ := ih (installPackage env p h).host
      simp only [ht, installsOf_append]
      have hone : installsOf ([⟨Call.pkgInstall p, false, none⟩] : List (Event ρ ε)) = [p] := rfl
      rw [hone]
      exact ⟨⟨r, (by simp [ih1])⟩, fun h0 => (by simp [ih2 h0]), ih3⟩

theorem mark_bind {β : Type} (c : Call ρ) (f : Unit → Prog ρ χ ε β) (h : Host χ) :
    Prog.bind (mark c) f h = ⟨(f () h).res, (f () h).host, ⟨c, false, none⟩ :: (f () h).trace⟩ :=
  rfl

theorem archivedOf_cons_other (ev : Event ρ ε) (t : List (Event ρ ε))
    (h : archivedOf [ev] = []) : archivedOf (ev :: t) = archivedOf t := by
  have := archivedOf_append [ev] t
  simp only [List.singleton_append] at this
  rw [this, h]
  rfl

theorem installsOf_cons_other (ev : Event ρ ε) (t : List (Event ρ ε))
    (h : installsOf [ev] = []) : installsOf (ev :: t) = installsOf t := by
  have := installsOf_append [ev] t
  simp only [List.singleton_append] at this
  rw [this, h]
  rfl

theorem installPackages_spec (env : Env ρ χ ε) (ps : List ρ) (h : Host χ) :
    (∃ rest, installsOf (installPackages env ps h).trace ++ rest = ps) ∧
    ((installPackages env ps h).res = .ok () →
      installsOf (installPackages env ps h).trace = ps ∧
      archivedOf (installPackages env ps h).trace = ps) ∧
    (installsOf (installPackages env ps h).trace ≠ [] →
      archivedOf (installPackages env ps h).trace = ps ∧
      Call.waitWorkers ∈ (installPackages env ps h).trace.map Event.call) ∧
    (ps = [] → (installPackages env ps h).trace = []) ∧
    (∀ x, (installPackages env ps h).res = .error x → ∀ e, x ≠ Exit.err e) := by
  unfold installPackages
  by_cases hlen : ps.length > 0
  · simp only [hlen, if_true, bind_def, pure_def]
    rw [mark_bind]
    have hne : ps ≠ [] := by
      intro h0
      rw [h0] at hlen
      simp at hlen
    obtain ⟨⟨r, p1⟩, p2, p3⟩ := produce_spec env ps 20 h
    have hpi : installsOf (produce env ps 20 h).trace = [] :=
      installsOf_of_phase _ (fun ev hev => by
        have := ((ordered_produce env ps 20) h).2 ev hev
        omega)
    rcases bind_cases (produce env ps 20) (fun _ =>
        Prog.bind (mark Call.closeChannel) (fun _ =>
          Prog.bind (mark Call.waitWorkers) (fun _ => forEach (installPackage env) ps))) h
      with ⟨x, hx, heq⟩ | ⟨_, hok, heq⟩
    · rw [heq]
      have hnil : installsOf ((⟨Call.spawnWorkers, false, none⟩ : Event ρ ε) ::
          (produce env ps 20 h).trace) = [] := by
        rw [installsOf_cons_other (⟨Call.spawnWorkers, false, none⟩ : Event ρ ε) _ rfl, hpi]
      simp only [hnil]
      refine ⟨⟨ps, rfl⟩, fun h0 => (by cases h0), fun h0 => absurd rfl h0,
        fun h0 => absurd h0 hne, ?_⟩
      intro y hy
      simp only [Except.error.injEq] at hy
      subst hy
      exact p3 x hx
    · rw [heq, mark_bind, mark_bind]
      have harch := p2 hok
      obtain ⟨⟨r2, i1⟩, i2, i3⟩ := installs_spec env ps (produce env ps 20 h).host
      have hia : archivedOf (forEach (installPackage env) ps (produce env ps 20 h).host).trace =
          [] :=
        archivedOf_of_phase _ (fun ev hev => by
          have := ((ordered_forEach 11 _ (ordered_installPackage env) ps) _).2 ev hev
          omega)
      have hI : installsOf ((⟨Call.spawnWorkers, false, none⟩ : Event ρ ε) ::
          ((produce env ps 20 h).trace ++ (⟨Call.closeChannel, false, none⟩ : Event ρ ε) ::
            (⟨Call.waitWorkers, false, none⟩ : Event ρ ε) ::
            (forEach (installPackage env) ps (produce env ps 20 h).host).trace)) =
          installsOf (forEach (installPackage env) ps (produce env ps 20 h).host).trace := by
        rw [installsOf_cons_other (⟨Call.spawnWorkers, false, none⟩ : Event ρ ε) _ rfl, installsOf_append, hpi,
          installsOf_cons_other (⟨Call.closeChannel, false, none⟩ : Event ρ ε) _ rfl,
          installsOf_cons_other (⟨Call.waitWorkers, false, none⟩ : Event ρ ε) _ rfl]
        rfl
      have hA : archivedOf ((⟨Call.spawnWorkers, false, none⟩ : Event ρ ε) ::
          ((produce env ps 20 h).trace ++ (⟨Call.closeChannel, false, none⟩ : Event ρ ε) ::
            (⟨Call.waitWorkers, false, none⟩ : Event ρ ε) ::
            (forEach (installPackage env) ps (produce env ps 20 h).host).trace)) = ps := by
        rw [archivedOf_cons_other (⟨Call.spawnWorkers, false, none⟩ : Event ρ ε) _ rfl, archivedOf_append, harch,
          archivedOf_cons_other (⟨Call.closeChannel, false, none⟩ : Event ρ ε) _ rfl,
          archivedOf_cons_other (⟨Call.waitWorkers, false, none⟩ : Event ρ ε) _ rfl, hia, List.append_nil]
      rw [hI, hA]
      refine ⟨⟨r2, i1⟩, fun h0 => ⟨i2 h0, rfl⟩, fun _ => ⟨rfl, ?_⟩, fun h0 => absurd h0 hne, i3⟩
      simp
  · have hnil : ps = [] := by
      cases ps with
      | nil => rfl
      | cons a b => simp at hlen
    subst hnil
    simp [pure_def, Prog.pure, installsOf, archivedOf]

theorem convergePackages_spec (env : Env ρ χ ε) (m : Manifest ρ) (h : Host χ) :
    (checksOf (convergePackages env m h).trace).map Prod.fst = m.Packages ∧
    (∃ rest, installsOf (convergePackages env m h).trace ++ rest =
      toInstallOf (convergePackages env m h).trace) ∧
    ((convergePackages env m h).res = .ok () →
      installsOf (convergePackages env m h).trace =
        toInstallOf (convergePackages env m h).trace ∧
      archivedOf (convergePackages env m h).trace =
        toInstallOf (convergePackages env m h).trace) ∧
    (installsOf (convergePackages env m h).trace ≠ [] →
      archivedOf (convergePackages env m h).trace =
        toInstallOf (convergePackages env m h).trace ∧
      Call.waitWorkers ∈ (convergePackages env m h).trace.map Event.call) ∧
    (toInstallOf (convergePackages env m h).trace = [] →
      ∀ ev ∈ (convergePackages env m h).trace, ev.call.phase = 6) ∧
    (∀ x, (convergePackages env m h).res = .error x → ∀ e, x ≠ Exit.err e) := by
  unfold convergePackages
  simp only [bind_def, pure_def]
  obtain ⟨c1, c2⟩ := collect_spec env m.Packages [] h
  rw [bind_ok _ _ h _ c1]
  simp only [List.nil_append] at c1 ⊢
  have hc6 := (ordered_collect env m.Packages []) h
  have hp := (ordered_installPackages env (toInstallOf (collect env m.Packages [] h).trace))
    (collect env m.Packages [] h).host
  have hci : installsOf (collect env m.Packages [] h).trace = [] :=
    installsOf_of_phase _ (fun ev hev => by
      have := hc6.2 ev hev
      omega)
  have hca : archivedOf (collect env m.Packages [] h).trace = [] :=
    archivedOf_of_phase _ (fun ev hev => by
      have := hc6.2 ev hev
      omega)
  have hpc : checksOf (installPackages env (toInstallOf (collect env m.Packages [] h).trace)
      (collect env m.Packages [] h).host).trace = [] :=
    checksOf_of_phase _ (fun ev hev => by
      have := hp.2 ev hev
      omega)
  have hpt : toInstallOf (installPackages env (toInstallOf (collect env m.Packages [] h).trace)
      (collect env m.Packages [] h).host).trace = [] :=
    toInstallOf_of_phase _ (fun ev hev => by
      have := hp.2 ev hev
      omega)
  obtain ⟨s1, s2, s3, s4, s5⟩ := installPackages_spec env
    (toInstallOf (collect env m.Packages [] h).trace) (collect env m.Packages [] h).host
  simp only [checksOf_append, toInstallOf_append, installsOf_append, archivedOf_append, hci, hca,
    hpc, hpt, List.append_nil, List.nil_append, List.map_append]
  refine ⟨c2, s1, s2, ?_, ?_, s5⟩
  · intro hne
    obtain ⟨a1, a2⟩ := s3 hne
    exact ⟨a1, List.mem_append.2 (Or.inr a2)⟩
  · intro hnil ev hev
    rw [s4 hnil, List.append_nil] at hev
    have := hc6.2 ev hev
    omega

/-! ## Converge, part by part -/

theorem failStop_convergeSources (env : Env ρ χ ε) (m : Manifest ρ) :
    ∀ h, (convergeSources env m h).FailStop False := by
  unfold convergeSources
  simp only [bind_def, pure_def]
  apply failStop_bind (failStop_forEach_apply Call.userCreate env.userCreate (fun _ => rfl) _)
  intro _
  apply failStop_bind (failStop_begin env)
  intro _
  apply failStop_bind
    (failStop_installAll Call.slistInstall _ (fun _ => ⟨rfl, fun _ => rfl⟩) _ _)
  intro needed
  apply failStop_bind
    (failStop_ite _ _ _ (failStop_apply Call.checkInstall _ rfl) (failStop_pure ()))
  intro _
  exact failStop_installAll Call.ppaInstall _ (fun _ => ⟨rfl, fun _ => rfl⟩) _ _

theorem failStop_failing_event {α : Type} {r : Run ρ χ ε α} (hr : r.FailStop False)
    (x : Exit ε) (hx : r.res = .error x) : ∃ ev ∈ r.trace, ev.err ≠ none := by
  simp only [Run.FailStop, hx] at hr
  rcases hr with ⟨pre, ev, post, ht, _, hs, _⟩ | ⟨hf, _⟩
  · refine ⟨ev, by rw [ht]; simp, fun hn => ?_⟩
    exact stops_not_quiet ev x hs (Or.inl hn)
  · exact hf.elim

theorem forceRefresh_spec (env : Env ρ χ ε) (needed : Bool) (h : Host χ) :
    (needed = false ∧ (forceRefresh (ρ := ρ) env needed h).trace = [] ∧
      (forceRefresh (ρ := ρ) env needed h).res = .ok ()) ∨
    (needed = true ∧ ∃ err,
      (forceRefresh (ρ := ρ) env needed h).trace = [⟨Call.forceUpdate, false, err⟩] ∧
      (forceRefresh (ρ := ρ) env needed h).res =
        (match err with
        | none => Except.ok ()
        | some e => Except.error (Exit.err e))) := by
  cases needed with
  | false =>
    left
    simp [forceRefresh, pure_def, Prog.pure]
  | true =>
    right
    refine ⟨rfl, (env.aptUpdate h).1, ?_⟩
    cases he : (env.aptUpdate h).1 <;>
      simp [forceRefresh, apply, exec, Prog.bind, callOp, sys, stop, Prog.pure, he]

theorem converge_cases (env : Env ρ χ ε) (m : Manifest ρ) (h : Host χ) :
    (∃ x, (convergeSources env m h).res = .error x ∧
      (Converge env m h).res = .error x ∧
      (Converge env m h).trace = (convergeSources env m h).trace) ∨
    (∃ needed h1, (convergeSources env m h).res = .ok needed ∧
      h1 = (convergeSources env m h).host ∧
      ((∃ x, (forceRefresh (ρ := ρ) env needed h1).res = .error x ∧
          (Converge env m h).res = .error x ∧
          (Converge env m h).trace =
            (convergeSources env m h).trace ++ (forceRefresh (ρ := ρ) env needed h1).trace) ∨
        (∃ h2, (forceRefresh (ρ := ρ) env needed h1).res = .ok () ∧
          h2 = (forceRefresh (ρ := ρ) env needed h1).host ∧
          ((∃ x, (convergePackages env m h2).res = .error x ∧
              (Converge env m h).res = .error x ∧
              (Converge env m h).trace =
                (convergeSources env m h).trace ++
                  ((forceRefresh (ρ := ρ) env needed h1).trace ++
                    (convergePackages env m h2).trace)) ∨
            ((convergePackages env m h2).res = .ok () ∧
              (Converge env m h).res =
                (convergeResources env m (convergePackages env m h2).host).res ∧
              (Converge env m h).trace =
                (convergeSources env m h).trace ++
                  ((forceRefresh (ρ := ρ) env needed h1).trace ++
                    ((convergePackages env m h2).trace ++
                      (convergeResources env m (convergePackages env m h2).host).trace))))))) := by
  rw [converge_eq]
  rcases bind_cases (convergeSources env m) _ h with ⟨x, hx, heq⟩ | ⟨needed, hok, heq⟩
  · left
    rw [heq]
    exact ⟨x, hx, rfl, rfl⟩
  · right
    refine ⟨needed, _, hok, rfl, ?_⟩
    rw [heq]
    rcases bind_cases (forceRefresh (ρ := ρ) env needed) _ (convergeSources env m h).host
      with ⟨x, hx, heq2⟩ | ⟨_, hok2, heq2⟩
    · left
      rw [heq2]
      exact ⟨x, hx, rfl, rfl⟩
    · right
      refine ⟨_, hok2, rfl, ?_⟩
      rw [heq2]
      rcases bind_cases (convergePackages env m) (fun _ => convergeResources env m)
        (forceRefresh (ρ := ρ) env needed (convergeSources env m h).host).host
        with ⟨x, hx, heq3⟩ | ⟨_, hok3, heq3⟩
      · left
        rw [heq3]
        exact ⟨x, hx, rfl, rfl⟩
      · right
        rw [heq3]
        exact ⟨hok3, rfl, rfl⟩

/-! ## The forced refresh -/

theorem forced_append (s t : List (Event ρ ε)) : forced (s ++ t) = forced s ++ forced t := by
  simp [forced, List.filter_append]

theorem forced_of_phase (t : List (Event ρ ε)) (ht : ∀ ev ∈ t, ev.call.phase ≠ 5) :
    forced t = [] := by
  unfold forced
  rw [List.filter_eq_nil_iff]
  intro ev hev
  have := ht ev hev
  cases hc : ev.call <;> simp_all [Call.phase]

theorem converge_after_sources (env : Env ρ χ ε) (m : Manifest ρ) (h : Host χ) (needed : Bool)
    (hok : (convergeSources env m h).res = .ok needed) :
    ∃ rest, (Converge env m h).trace =
        (convergeSources env m h).trace ++
          ((forceRefresh (ρ := ρ) env needed (convergeSources env m h).host).trace ++ rest) ∧
      (∀ ev ∈ rest, 6 ≤ ev.call.phase) ∧
      (∀ x, (forceRefresh (ρ := ρ) env needed (convergeSources env m h).host).res = .error x →
        (Converge env m h).res = .error x ∧ rest = []) := by
  rcases converge_cases env m h with ⟨x, hx, _⟩ | ⟨n, h1, hn, rfl, hrest⟩
  · rw [hok] at hx
    cases hx
  · rw [hok] at hn
    simp only [Except.ok.injEq] at hn
    subst hn
    rcases hrest with ⟨x, hx, hres, ht⟩ | ⟨h2, hok2, rfl, hrest⟩
    · refine ⟨[], (by simpa using ht), fun ev hev => (by cases hev), ?_⟩
      intro y hy
      rw [hx] at hy
      simp only [Except.error.injEq] at hy
      subst hy
      exact ⟨hres, rfl⟩
    · rcases hrest with ⟨x, hx, hres, ht⟩ | ⟨hok3, hres, ht⟩
      · refine ⟨_, ht, ?_, ?_⟩
        · intro ev hev
          exact ((ordered_convergePackages env m _).2 ev hev).1
        · intro y hy
          rw [hok2] at hy
          cases hy
      · refine ⟨_, ht, ?_, ?_⟩
        · intro ev hev
          rcases List.mem_append.1 hev with h3 | h4
          · exact ((ordered_convergePackages env m _).2 ev h3).1
          · have := ((ordered_convergeResources env m _).2 ev h4).1
            omega
        · intro y hy
          rw [hok2] at hy
          cases hy

theorem convergeSources_ok_of_quiet (env : Env ρ χ ε) (m : Manifest ρ) (h : Host χ)
    (hpre : ∀ ev ∈ (Converge env m h).trace, ev.call.phase ≤ 4 → ev.err = none) :
    ∃ needed, (convergeSources env m h).res = .ok needed := by
  cases hr : (convergeSources env m h).res with
  | ok needed => exact ⟨needed, rfl⟩
  | error x =>
    exfalso
    obtain ⟨ev, hev, herr⟩ := failStop_failing_event (failStop_convergeSources env m h) x hr
    have hph := ((ordered_convergeSources env m h).2 ev hev).2
    rcases converge_cases env m h with ⟨_, _, _, ht⟩ | ⟨n, _, hn, _⟩
    · rw [← ht] at hev
      exact herr (hpre ev hev hph)
    · rw [hr] at hn
      cases hn

/-- C7: in a run in which every call up to the package archives succeeds,
`Converge` forces `apt-get update` exactly once if a source list or a package
archive reported `created` and not at all otherwise. The forced refresh comes
when the users, `Begin`, every source list, the archive tool and every package
archive are done, and every call after it belongs to the packages or to what
follows them. If it fails, `Converge` returns its error and makes no further
call. -/
theorem converge_forces_refresh_once (env : Env ρ χ ε) (m : Manifest ρ) (h : Host χ)
    (hpre : ∀ ev ∈ (Converge env m h).trace, ev.call.phase ≤ 4 → ev.err = none) :
    (forced (Converge env m h).trace).length =
      (if (Converge env m h).trace.any Event.created then 1 else 0) ∧
    (∀ pre ev post, (Converge env m h).trace = pre ++ ev :: post →
      ev.call = Call.forceUpdate →
      (∃ begin, pre.map Event.call =
          m.Users.map Call.userCreate ++ begin ++ m.SourceLists.map Call.slistInstall ++
            (if m.PackageArchives.length > 0 then [Call.checkInstall] else []) ++
            m.PackageArchives.map Call.ppaInstall ∧
        ∀ c ∈ begin, c.phase = 1) ∧
      (∀ y ∈ post, 6 ≤ y.call.phase) ∧
      (∀ e, ev.err = some e →
        (Converge env m h).res = Except.error (Exit.err e) ∧ post = [])) := by
  obtain ⟨needed, hok⟩ := convergeSources_ok_of_quiet env m h hpre
  obtain ⟨rest, ht, hrest, hstop⟩ := converge_after_sources env m h needed hok
  obtain ⟨hneeded, hshape⟩ := convergeSources_ok env m h needed hok
  have h14 := (ordered_convergeSources env m h).2
  have hf1 : forced (convergeSources env m h).trace = [] :=
    forced_of_phase _ (fun ev hev => by
      have := h14 ev hev
      omega)
  have hf3 : forced rest = [] :=
    forced_of_phase _ (fun ev hev => by
      have := hrest ev hev
      omega)
  have ha3 : rest.any Event.created = false :=
    any_created_of_phase _ (fun ev hev => by
      have := hrest ev hev
      omega)
  have ha2 : (forceRefresh (ρ := ρ) env needed (convergeSources env m h).host).trace.any
      Event.created = false :=
    any_created_of_ordered (ordered_forceRefresh env needed) _ (Or.inl (by decide))
  rcases forceRefresh_spec (ρ := ρ) env needed (convergeSources env m h).host
    with ⟨hn, ht2, _⟩ | ⟨hn, err, ht2, hres2⟩
  · constructor
    · rw [ht, forced_append, forced_append, hf1, hf3, ht2]
      simp only [List.any_append, ha3, ← hneeded, hn, ht2]
      rfl
    · intro pre ev post hsplit hev
      exfalso
      have hmem : ev ∈ (Converge env m h).trace := by
        rw [hsplit]
        simp
      rw [ht, ht2, List.nil_append] at hmem
      rcases List.mem_append.1 hmem with h1 | h3
      · have := h14 ev h1
        rw [hev] at this
        simp [Call.phase] at this
      · have := hrest ev h3
        rw [hev] at this
        simp [Call.phase] at this
  · constructor
    · rw [ht, forced_append, forced_append, hf1, hf3, ht2]
      simp only [List.any_append, ha3, ← hneeded, hn, ha2]
      rfl
    · intro pre ev post hsplit hev
      rw [ht, ht2, List.singleton_append] at hsplit
      rcases split_cases hsplit.symm with h1 | ⟨hp, he, hq⟩ | h3
      · exfalso
        have := h14 ev h1
        rw [hev] at this
        simp [Call.phase] at this
      · subst hp hq
        refine ⟨hshape, hrest, ?_⟩
        intro e herr
        subst he
        simp only at herr
        rw [herr] at hres2
        exact hstop _ hres2
      · exfalso
        have := hrest ev h3
        rw [hev] at this
        simp [Call.phase] at this

/-- The statement of C7 on a manifest with one resource of every kind whose
source list is newly created. -/
theorem converge_forces_refresh_once_witness :
    (∀ ev ∈ (Converge freshEnv (manifestOf "a") (hostAt 0 none)).trace,
      ev.call.phase ≤ 4 → ev.err = none) ∧
    (forced (Converge freshEnv (manifestOf "a") (hostAt 0 none)).trace).length =
      (if (Converge freshEnv (manifestOf "a") (hostAt 0 none)).trace.any Event.created
        then 1 else 0) :=
  ⟨by decide,
    (converge_forces_refresh_once freshEnv (manifestOf "a") (hostAt 0 none) (by decide)).1⟩

/-! ## The packages inside Converge -/

theorem converge_around_packages (env : Env ρ χ ε) (m : Manifest ρ) (h : Host χ) :
    ∃ a b c, (Converge env m h).trace = a ++ (b ++ c) ∧
      (∀ ev ∈ a, ev.call.phase ≤ 5) ∧ (∀ ev ∈ c, 12 ≤ ev.call.phase) ∧
      ((b = [] ∧ c = [] ∧ (∃ x, (Converge env m h).res = .error x) ∧
          ∃ ev ∈ a, ev.err ≠ none) ∨
        (∃ h2, b = (convergePackages env m h2).trace ∧
          ((convergePackages env m h2).res = .ok () ∨
            ((Converge env m h).res = (convergePackages env m h2).res ∧ c = [])))) := by
  have h14 := (ordered_convergeSources env m h).2
  rcases converge_cases env m h with ⟨x, hx, hres, ht⟩ | ⟨needed, h1, hn, rfl, hrest⟩
  · refine ⟨(convergeSources env m h).trace, [], [], (by simpa using ht), ?_, ?_, ?_⟩
    · intro ev hev
      have := h14 ev hev
      omega
    · intro ev hev
      cases hev
    · left
      exact ⟨rfl, rfl, ⟨x, hres⟩,
        failStop_failing_event (failStop_convergeSources env m h) x hx⟩
  · have h5 := (ordered_forceRefresh (ρ := ρ) env needed (convergeSources env m h).host).2
    have ha : ∀ ev ∈ (convergeSources env m h).trace ++
        (forceRefresh (ρ := ρ) env needed (convergeSources env m h).host).trace,
        ev.call.phase ≤ 5 := by
      intro ev hev
      rcases List.mem_append.1 hev with h1 | h2
      · have := h14 ev h1
        omega
      · have := h5 ev h2
        omega
    rcases hrest with ⟨x, hx, hres, ht⟩ | ⟨h2, hok2, rfl, hrest⟩
    · refine ⟨(convergeSources env m h).trace ++
          (forceRefresh (ρ := ρ) env needed (convergeSources env m h).host).trace, [], [],
        (by simpa using ht), ha, (fun ev hev => by cases hev), ?_⟩
      left
      refine ⟨rfl, rfl, ⟨x, hres⟩, ?_⟩
      rcases forceRefresh_spec (ρ := ρ) env needed (convergeSources env m h).host
        with ⟨_, _, hr⟩ | ⟨_, err, ht2, hr⟩
      · rw [hx] at hr
        cases hr
      · cases err with
        | none =>
          rw [hx] at hr
          cases hr
        | some e =>
          refine ⟨⟨Call.forceUpdate, false, some e⟩, ?_, by simp⟩
          rw [ht2]
          simp
    · rcases hrest with ⟨x, hx, hres, ht⟩ | ⟨hok3, hres, ht⟩
      · refine ⟨(convergeSources env m h).trace ++
            (forceRefresh (ρ := ρ) env needed (convergeSources env m h).host).trace,
          (convergePackages env m (forceRefresh (ρ := ρ) env needed (convergeSources env m h).host).host).trace,
          [], (by rw [ht]; simp), ha, (fun ev hev => by cases hev), ?_⟩
        right
        exact ⟨_, rfl, Or.inr ⟨by rw [hres, hx], rfl⟩⟩
      · refine ⟨(convergeSources env m h).trace ++
            (forceRefresh (ρ := ρ) env needed (convergeSources env m h).host).trace,
          (convergePackages env m (forceRefresh (ρ := ρ) env needed (convergeSources env m h).host).host).trace,
          (convergeResources env m (convergePackages env m (forceRefresh (ρ := ρ) env needed (convergeSources env m h).host).host).host).trace,
          (by rw [ht]; simp), ha, ?_, ?_⟩
        · intro ev hev
          exact ((ordered_convergeResources env m _).2 ev hev).1
        · right
          exact ⟨_, rfl, Or.inl hok3⟩

theorem mem_of_installsOf_ne_nil (t : List (Event ρ ε)) (h : installsOf t ≠ []) :
    ∃ ev ∈ t, ∃ p, ev.call = Call.pkgInstall p := by
  obtain ⟨p, hp⟩ := List.exists_mem_of_ne_nil _ h
  unfold installsOf at hp
  obtain ⟨ev, hev, hsel⟩ := List.mem_filterMap.1 hp
  refine ⟨ev, hev, ?_⟩
  cases hc : ev.call <;> simp_all

theorem toInstallOf_nil_of_checks (t : List (Event ρ ε))
    (h : ∀ ev ∈ t, ∀ p, ev.call = Call.installed p → ev.flag = true) : toInstallOf t = [] := by
  unfold toInstallOf
  rw [List.map_eq_nil_iff, List.filter_eq_nil_iff]
  intro x hx
  unfold checksOf at hx
  obtain ⟨ev, hev, hsel⟩ := List.mem_filterMap.1 hx
  cases hc : ev.call with
  | installed p =>
    rw [hc] at hsel
    simp only [Option.some.injEq] at hsel
    rw [← hsel]
    simp [h ev hev p hc]
  | _ => simp [hc] at hsel

theorem converge_packages_spec (env : Env ρ χ ε) (m : Manifest ρ) (h : Host χ) :
    ((∀ ev ∈ (Converge env m h).trace, ev.call.phase ≤ 5 → ev.err = none) →
      (checksOf (Converge env m h).trace).map Prod.fst = m.Packages) ∧
    (∃ rest, installsOf (Converge env m h).trace ++ rest =
      toInstallOf (Converge env m h).trace) ∧
    (((Converge env m h).res = .ok () ∨ ∃ e, (Converge env m h).res = .error (Exit.err e)) →
      installsOf (Converge env m h).trace = toInstallOf (Converge env m h).trace) ∧
    (installsOf (Converge env m h).trace ≠ [] →
      archivedOf (Converge env m h).trace = toInstallOf (Converge env m h).trace ∧
      Call.waitWorkers ∈ (Converge env m h).trace.map Event.call) ∧
    (toInstallOf (Converge env m h).trace = [] →
      ∀ ev ∈ (Converge env m h).trace, ev.call.phase ≤ 6 ∨ 12 ≤ ev.call.phase) := by
  obtain ⟨a, b, c, ht, ha, hc, hcase⟩ := converge_around_packages env m h
  have ac : checksOf a = [] := checksOf_of_phase _ (fun ev hev => by have := ha ev hev; omega)
  have at_ : toInstallOf a = [] :=
    toInstallOf_of_phase _ (fun ev hev => by have := ha ev hev; omega)
  have ai : installsOf a = [] := installsOf_of_phase _ (fun ev hev => by have := ha ev hev; omega)
  have aa : archivedOf a = [] := archivedOf_of_phase _ (fun ev hev => by have := ha ev hev; omega)
  have cc : checksOf c = [] := checksOf_of_phase _ (fun ev hev => by have := hc ev hev; omega)
  have ct : toInstallOf c = [] :=
    toInstallOf_of_phase _ (fun ev hev => by have := hc ev hev; omega)
  have ci : installsOf c = [] := installsOf_of_phase _ (fun ev hev => by have := hc ev hev; omega)
  have ca : archivedOf c = [] := archivedOf_of_phase _ (fun ev hev => by have := hc ev hev; omega)
  rw [ht]
  simp only [checksOf_append, toInstallOf_append, installsOf_append, archivedOf_append, ac, at_,
    ai, aa, cc, ct, ci, ca, List.nil_append, List.append_nil]
  rcases hcase with ⟨hb, hcn, _, ev, hev, herr⟩ | ⟨h2, hb, hres⟩
  · subst hb hcn
    refine ⟨?_, ⟨[], rfl⟩, fun _ => rfl, fun hne => absurd rfl hne, ?_⟩
    · intro hq
      exfalso
      exact herr (hq ev (by simpa using hev) (ha ev hev))
    · intro _ ev hev
      simp only [List.append_nil] at hev
      have := ha ev hev
      omega
  · obtain ⟨s1, s2, s3, s4, s5, s6⟩ := convergePackages_spec env m h2
    subst hb
    refine ⟨fun _ => s1, s2, ?_, ?_, ?_⟩
    · intro hret
      rcases hres with hok | ⟨hsame, _⟩
      · exact (s3 hok).1
      · rw [hsame] at hret
        rcases hret with hok | ⟨e, he⟩
        · exact (s3 hok).1
        · exact absurd rfl (s6 _ he e)
    · intro hne
      obtain ⟨p1, p2⟩ := s4 hne
      refine ⟨p1, ?_⟩
      simp only [List.map_append, List.mem_append]
      exact Or.inr (Or.inl p2)
    · intro hnil ev hev
      rcases List.mem_append.1 hev with h1 | h23
      · have := ha ev h1
        omega
      · rcases List.mem_append.1 h23 with h2 | h3
        · have := s5 hnil ev h2
          omega
        · have := hc ev h3
          omega

/-! ## The packages that are installed -/

/-- C6, as stated, fails: with two packages to install and an `Install` that
fails, every call up to the package archives succeeds, both `Installed` checks
return false, and only the first package's `Install` is invoked, because the
failure ends the process. -/
theorem failed_install_skips_later_packages :
    (∀ ev ∈ (Converge installFails twoPackages (hostAt 0 none)).trace,
      ev.call.phase ≤ 4 → ev.err = none) ∧
    toInstallOf (Converge installFails twoPackages (hostAt 0 none)).trace = ["nginx", "redis"] ∧
    installsOf (Converge installFails twoPackages (hostAt 0 none)).trace = ["nginx"] ∧
    (Converge installFails twoPackages (hostAt 0 none)).res =
      Except.error (Exit.fatal "exit status 100") :=
  ⟨by decide, by decide, by decide, rfl⟩

/-- C6, amended: when every call up to the forced refresh succeeds, `Installed`
is checked for every package of the manifest, in order. The packages whose
`Install` is invoked are, in manifest order and each once, the first of the
packages whose check returned false, and all of them whenever `Converge`
returns. When an `Install` is invoked, `ArchiveUrls` has returned for every
package whose check returned false, the wait for the workers is over, and only
installs and later kinds follow. When every check returns true, no worker is
started, no locator is fetched and no `Install` is invoked. -/
theorem converge_installs_missing_packages (env : Env ρ χ ε) (m : Manifest ρ) (h : Host χ) :
    ((∀ ev ∈ (Converge env m h).trace, ev.call.phase ≤ 5 → ev.err = none) →
      (checksOf (Converge env m h).trace).map Prod.fst = m.Packages) ∧
    (∃ rest, installsOf (Converge env m h).trace ++ rest =
      toInstallOf (Converge env m h).trace) ∧
    (((Converge env m h).res = Except.ok () ∨
        ∃ e, (Converge env m h).res = Except.error (Exit.err e)) →
      installsOf (Converge env m h).trace = toInstallOf (Converge env m h).trace) ∧
    (∀ pre ev post p, (Converge env m h).trace = pre ++ ev :: post →
      ev.call = Call.pkgInstall p →
      archivedOf pre = toInstallOf (Converge env m h).trace ∧
      Call.waitWorkers ∈ pre.map Event.call ∧
      ∀ y ∈ post, 11 ≤ y.call.phase) ∧
    ((∀ ev ∈ (Converge env m h).trace, ∀ p, ev.call = Call.installed p → ev.flag = true) →
      ∀ ev ∈ (Converge env m h).trace, ev.call.phase ≤ 6 ∨ 12 ≤ ev.call.phase) := by
  obtain ⟨p0, p1, p2, p3, p4⟩ := converge_packages_spec env m h
  refine ⟨p0, p1, p2, ?_, fun hall => p4 (toInstallOf_nil_of_checks _ hall)⟩
  intro pre ev post p ht hev
  have hord := (ordered_converge env m h).1
  rw [ht, List.pairwise_append] at hord
  obtain ⟨_, hpost, _⟩ := hord
  rw [List.pairwise_cons] at hpost
  have hge : ∀ y ∈ ev :: post, 11 ≤ y.call.phase := by
    intro y hy
    rcases List.mem_cons.1 hy with rfl | hy
    · rw [hev]
      exact le_refl _
    · have := hpost.1 y hy
      rw [hev] at this
      exact this
  have hne : installsOf (Converge env m h).trace ≠ [] := by
    intro hnil
    have hmem : p ∈ installsOf (Converge env m h).trace := by
      unfold installsOf
      rw [List.mem_filterMap]
      exact ⟨ev, by rw [ht]; simp, by rw [hev]⟩
    rw [hnil] at hmem
    cases hmem
  obtain ⟨ha, hw⟩ := p3 hne
  refine ⟨?_, ?_, fun y hy => hge y (List.mem_cons_of_mem _ hy)⟩
  · rw [← ha, ht, archivedOf_append,
      archivedOf_of_phase (ev :: post) (fun y hy => by have := hge y hy; omega),
      List.append_nil]
  · rw [ht, List.map_append, List.mem_append] at hw
    rcases hw with hw | hw
    · exact hw
    · exfalso
      obtain ⟨y, hy, hyc⟩ := List.mem_map.1 hw
      have := hge y hy
      rw [hyc] at this
      simp [Call.phase] at this

/-- The statement of the amended C6 on a run that returns: one package, not
installed, is installed. -/
theorem converge_installs_missing_packages_witness :
    ((Converge freshEnv (manifestOf "a") (hostAt 0 none)).res = Except.ok () ∨
      ∃ e, (Converge freshEnv (manifestOf "a") (hostAt 0 none)).res =
        Except.error (Exit.err e)) ∧
    installsOf (Converge freshEnv (manifestOf "a") (hostAt 0 none)).trace =
      toInstallOf (Converge freshEnv (manifestOf "a") (hostAt 0 none)).trace :=
  ⟨Or.inl rfl,
    (converge_installs_missing_packages freshEnv (manifestOf "a") (hostAt 0 none)).2.2.1
      (Or.inl rfl)⟩

/-! ## Fetch failures -/

theorem stops_error (ev : Event ρ ε) (x : Exit ε) (e : ε) (hs : ev.stops = some x)
    (hx : x = Exit.err e ∨ x = Exit.fatal e) : ev.err = some e ∧ ev.call.isFetch = false := by
  obtain ⟨call, flag, err⟩ := ev
  cases err with
  | none => simp [Event.stops] at hs
  | some e0 =>
    rcases hx with rfl | rfl <;>
      cases call <;> simp_all [Event.stops, Call.onFailure, Call.returnsError, Call.isFetch]

theorem phase_of_isFetch (c : Call ρ) (h : c.isFetch = true) : c.phase = 8 := by
  cases c <;> simp_all [Call.isFetch, Call.phase]

/-- C10: whatever fails while its locators are fetched, a worker checks the
destination of every locator it receives, as long as they are not empty and
parse. When `Converge` returns an error or ends in `log.Fatal`, the error is
that of a call that is not a fetch. And when `Converge` returns, every fetch,
failed or not, is followed by a package install. -/
theorem fetch_failures_do_not_stop_converge (env : Env ρ χ ε) (m : Manifest ρ) (h : Host χ) :
    (∀ (ls : List String) (uris : List Url) (h0 : Host χ),
      (∀ u ∈ ls, u.length ≠ 0) → ls.map env.parseUrl = uris.map some →
      (worker (ρ := ρ) env ls h0).res = Except.ok () ∧
      statted (worker (ρ := ρ) env ls h0).trace = uris.map destination) ∧
    (∀ e, ((Converge env m h).res = Except.error (Exit.err e) ∨
        (Converge env m h).res = Except.error (Exit.fatal e)) →
      ∃ pre ev post, (Converge env m h).trace = pre ++ ev :: post ∧
        ev.err = some e ∧ ev.call.isFetch = false) ∧
    (((Converge env m h).res = Except.ok () ∨
        ∃ e, (Converge env m h).res = Except.error (Exit.err e)) →
      ∀ pre ev post, (Converge env m h).trace = pre ++ ev :: post →
        ev.call.isFetch = true → ∃ p, Call.pkgInstall p ∈ post.map Event.call) := by
  refine ⟨fun ls uris h0 => worker_handles_all env ls uris h0, ?_, ?_⟩
  · intro e hres
    have hfs := failStop_converge env m h
    rcases hres with hres | hres
    · simp only [Run.FailStop, hres] at hfs
      rcases hfs with ⟨pre, ev, post, ht, _, hs, _⟩ | ⟨_, hx, _⟩
      · exact ⟨pre, ev, post, ht, stops_error ev _ e hs (Or.inl rfl)⟩
      · rcases hx with hx | hx <;> cases hx
    · simp only [Run.FailStop, hres] at hfs
      rcases hfs with ⟨pre, ev, post, ht, _, hs, _⟩ | ⟨_, hx, _⟩
      · exact ⟨pre, ev, post, ht, stops_error ev _ e hs (Or.inr rfl)⟩
      · rcases hx with hx | hx <;> cases hx
  · intro hret pre ev post ht hev
    obtain ⟨_, _, p2, _, p4⟩ := converge_packages_spec env m h
    have hph := phase_of_isFetch ev.call hev
    have hmem : ev ∈ (Converge env m h).trace := by
      rw [ht]
      simp
    have hne : installsOf (Converge env m h).trace ≠ [] := by
      rw [p2 hret]
      intro hnil
      have := p4 hnil ev hmem
      omega
    obtain ⟨ev2, hev2, p, hp⟩ := mem_of_installsOf_ne_nil _ hne
    refine ⟨p, ?_⟩
    have hord := (ordered_converge env m h).1
    rw [ht, List.pairwise_append] at hord
    obtain ⟨_, _, hcross⟩ := hord
    rw [ht] at hev2
    rcases List.mem_append.1 hev2 with h1 | h2
    · exfalso
      have := hcross ev2 h1 ev (List.mem_cons_self _ _)
      rw [hp, hph] at this
      simp [Call.phase] at this
    · rcases List.mem_cons.1 h2 with rfl | h3
      · rw [hp] at hev
        cases hev
      · exact List.mem_map.2 ⟨ev2, h3, hp⟩

/-- The statement of C10 on a run with the network down: `Converge` returns
`nil` although a request failed, and the failed request is followed by the
install of the package. -/
theorem fetch_failures_do_not_stop_converge_witness :
    ((Converge offlineEnv (manifestOf "a") (hostAt 0 none)).res = Except.ok () ∨
      ∃ e, (Converge offlineEnv (manifestOf "a") (hostAt 0 none)).res =
        Except.error (Exit.err e)) ∧
    (∃ ev ∈ (Converge offlineEnv (manifestOf "a") (hostAt 0 none)).trace,
      ev.call.isFetch = true ∧ ev.err = some "connection refused") ∧
    (∀ pre ev post,
      (Converge offlineEnv (manifestOf "a") (hostAt 0 none)).trace = pre ++ ev :: post →
      ev.call.isFetch = true → ∃ p, Call.pkgInstall p ∈ post.map Event.call) :=
  ⟨Or.inl rfl, by decide,
    (fetch_failures_do_not_stop_converge offlineEnv (manifestOf "a") (hostAt 0 none)).2.2
      (Or.inl rfl)⟩
end Prefab
